import Mathlib

/-!
Shallow embedding of the slasti_shop delivery engine
(`src/delivery/serializers.py`, `src/delivery/models.py`,
`src/delivery/consts.py`).

The persistent store is modelled as lists of couriers, batches and orders
kept in insertion order; an unordered Django queryset returns rows in that
storage order, and `order_by` is a stable sort over it.  Decimal weights
are rationals, timestamps are integers (seconds since the epoch), and the
validated `HH:MM` endpoints are the strings the source compares
lexicographically.
-/

namespace Slasti

/-- A validated `HH:MM-HH:MM` time window, already split at the dash
(`TimeRangeField.to_internal_value` guarantees the format, so the split
performed inside `has_intersection` always yields the two endpoints).
The second endpoint is called `stop` because `end` is reserved in Lean. -/
structure Window where
  start : String
  stop : String
deriving DecidableEq, Repr

/-- `consts.COURIER_TYPES`. -/
inductive CourierType
  | foot
  | bike
  | car
deriving DecidableEq, Repr

/-- `consts.COURIER_CAPACITIES`. -/
def COURIER_CAPACITIES : CourierType → ℚ
  | .foot => 10
  | .bike => 15
  | .car => 50

/-- Python's lexicographic string comparison on the underlying character
lists (code points), spelled out so that the kernel can evaluate it. -/
def pyCharListLt : List Char → List Char → Bool
  | [], [] => false
  | [], _ :: _ => true
  | _ :: _, [] => false
  | c :: cs, d :: ds =>
    if c.val < d.val then true
    else if d.val < c.val then false
    else pyCharListLt cs ds

/-- Python's `<` on strings. -/
def pyStrLt (a b : String) : Bool :=
  pyCharListLt a.data b.data

/-- `serializers.has_intersection`: scans the cross product and returns
true at the first pair with `start1 < end2 and end1 > start2`, where
`(start1, end1)` come from the second argument's window `j` and
`(start2, end2)` from the first argument's window `i`. -/
def has_intersection (time_ranges_1 time_ranges_2 : List Window) : Bool :=
  time_ranges_1.any fun i => time_ranges_2.any fun j =>
    pyStrLt j.start i.stop && pyStrLt i.start j.stop

/-- `models.Courier` (persisted fields). -/
structure Courier where
  courier_id : Nat
  courier_type : CourierType
  regions : List Nat
  working_hours : List Window
deriving DecidableEq, Repr

/-- `models.Batch`.  `past_courier` / `current_courier` are the nullable
foreign keys, stored as courier ids. -/
structure Batch where
  id : Nat
  past_courier : Option Nat
  current_courier : Option Nat
  assign_time : Int
  assign_type : CourierType
deriving DecidableEq, Repr

/-- `models.Order`.  `batch` is the nullable foreign key, stored as a
batch id. -/
structure Order where
  order_id : Nat
  weight : ℚ
  region : Nat
  delivery_hours : List Window
  complete_time : Option Int
  batch : Option Nat
deriving DecidableEq, Repr

/-- The whole persisted store, rows in insertion order. -/
structure State where
  couriers : List Courier
  batches : List Batch
  orders : List Order
deriving DecidableEq, Repr

/-- `Courier.objects.get(pk=cid)` (primary keys are unique, so the first
match is the row). -/
def findCourier (S : State) (cid : Nat) : Option Courier :=
  S.couriers.find? fun c => decide (c.courier_id = cid)

/-- Dereference a batch foreign key. -/
def findBatch (S : State) (bid : Nat) : Option Batch :=
  S.batches.find? fun b => decide (b.id = bid)

/-- Dereference an order primary key. -/
def findOrder (S : State) (oid : Nat) : Option Order :=
  S.orders.find? fun o => decide (o.order_id = oid)

/-- The courier id reached by the Django lookup `batch__current_courier`
starting from an order: none when the order has no batch or its batch has
no current courier. -/
def orderCourierId (S : State) (o : Order) : Option Nat :=
  match o.batch with
  | none => none
  | some bid =>
    match findBatch S bid with
    | none => none
    | some b => b.current_courier

/-- `Courier.capacity` (`models.py`). -/
def Courier.capacity (c : Courier) : ℚ :=
  COURIER_CAPACITIES c.courier_type

/-- Contribution of one order row to `Courier.total_weight`:
its weight if it is incomplete and `batch__current_courier` is the given
courier, else `0`. -/
def contrib (S : State) (cid : Nat) (o : Order) : ℚ :=
  if o.complete_time = none ∧ orderCourierId S o = some cid then o.weight else 0

/-- `Courier.total_weight` (`models.py`): the aggregated weight of the
incomplete orders whose batch's current courier is this courier. -/
def total_weight (S : State) (cid : Nat) : ℚ :=
  (S.orders.map (contrib S cid)).sum

/-- The reverse one-to-one `Courier.current_batch`: the batch whose
`current_courier` is this courier, when there is one. -/
def current_batch (S : State) (cid : Nat) : Option Batch :=
  S.batches.find? fun b => decide (b.current_courier = some cid)

/-- `batch.orders.all()`: the orders linked to the batch, in storage
order. -/
def ordersOfBatch (S : State) (bid : Nat) : List Order :=
  S.orders.filter fun o => decide (o.batch = some bid)

/-- Point update of one order's batch link (`order.batch = ...;
order.save()`, or one row of a bulk `update(batch=None)`). -/
def setOrderBatch (S : State) (oid : Nat) (v : Option Nat) : State :=
  { S with orders := S.orders.map fun o =>
      if o.order_id = oid then { o with batch := v } else o }

/-- Point update of one order's completion time. -/
def setOrderComplete (S : State) (oid : Nat) (t : Int) : State :=
  { S with orders := S.orders.map fun o =>
      if o.order_id = oid then { o with complete_time := some t } else o }

/-- Point update of one batch row. -/
def mapBatch (S : State) (bid : Nat) (f : Batch → Batch) : State :=
  { S with batches := S.batches.map fun b => if b.id = bid then f b else b }

/-- Replace the row of one courier. -/
def setCourier (S : State) (c : Courier) : State :=
  { S with couriers := S.couriers.map fun x =>
      if x.courier_id = c.courier_id then c else x }

/-- `order_by('weight')` as a stable sort of the storage order. -/
def sortByWeightAsc (l : List Order) : List Order :=
  l.insertionSort fun a b => a.weight ≤ b.weight

/-- `order_by('-weight')` as a stable sort of the storage order. -/
def sortByWeightDesc (l : List Order) : List Order :=
  l.insertionSort fun a b => b.weight ≤ a.weight

/-! ### Assign (`AssignSerializer`) -/

/-- The greedy loop of `AssignSerializer.save`: walk the weight-sorted
candidates, `continue` past candidates whose delivery hours do not
intersect the courier's working hours, take a fitting candidate, and
`break` at the first hours-matching candidate that does not fit.  Returns
the taken orders together with the final running weight. -/
def takeOrders (wh : List Window) (cap : ℚ) : List Order → ℚ → List Order × ℚ
  | [], total => ([], total)
  | o :: rest, total =>
    if !has_intersection o.delivery_hours wh then takeOrders wh cap rest total
    else if total + o.weight ≤ cap then
      let r := takeOrders wh cap rest (total + o.weight)
      (o :: r.1, r.2)
    else ([], total)

/-- Auto-increment primary key for a new batch row. -/
def freshBatchId (S : State) : Nat :=
  (S.batches.map Batch.id).foldr max 0 + 1

/-- The queryset `AssignSerializer.save` iterates: unassigned, incomplete
orders whose region is among the courier's regions. -/
def assignCandidates (S : State) (c : Courier) : List Order :=
  S.orders.filter fun o =>
    decide (o.batch = none) && decide (o.complete_time = none) &&
      c.regions.contains o.region

/-- The orders `AssignSerializer.save` takes, with the final running
weight: the greedy loop over the weight-sorted candidates. -/
def assignTaken (S : State) (c : Courier) : List Order × ℚ :=
  takeOrders c.working_hours c.capacity (sortByWeightAsc (assignCandidates S c)) 0

/-- The batch row `AssignSerializer.save` creates. -/
def assignNewBatch (S : State) (c : Courier) (now : Int) : Batch :=
  { id := freshBatchId S, past_courier := none,
    current_courier := some c.courier_id, assign_time := now,
    assign_type := c.courier_type }

/-- `AssignSerializer.save` (the state effect): a no-op when the courier
already has a current batch, otherwise run the greedy loop over the
weight-sorted candidates, and if anything was taken create a new open
batch and bind the taken orders to it. -/
def assignSave (S : State) (c : Courier) (now : Int) : State :=
  if (current_batch S c.courier_id).isSome then S
  else if (assignTaken S c).2 = 0 then S
  else
    (assignTaken S c).1.foldl
      (fun St o => setOrderBatch St o.order_id (some (freshBatchId S)))
      { S with batches := S.batches ++ [assignNewBatch S c now] }

/-- The assign endpoint: look the courier up, then run `save`. -/
def assignOp (S : State) (cid : Nat) (now : Int) : State :=
  match findCourier S cid with
  | none => S
  | some c => assignSave S c now

/-- The response of the assign endpoint
(`AssignSerializer.to_representation`): the ids of the incomplete orders
of the courier's current batch, plus its `assign_time`, or an empty list
when the courier has no current batch. -/
structure AssignResult where
  orders : List Nat
  assign_time : Option Int
deriving DecidableEq, Repr

/-- `AssignSerializer.get_orders` together with `to_representation`. -/
def assignRepr (S : State) (cid : Nat) : AssignResult :=
  match current_batch S cid with
  | some b =>
    { orders := ((ordersOfBatch S b.id).filter fun o =>
        decide (o.complete_time = none)).map Order.order_id
      assign_time := some b.assign_time }
  | none => { orders := [], assign_time := none }

/-! ### Courier profile update (`CourierSerializer.update`) -/

/-- Apply the validated (possibly partial) field changes of a PATCH/PUT
to the courier row (`super().update(instance, validated_data)`). -/
def updateFields (c : Courier) (nt : Option CourierType) (nr : Option (List Nat))
    (nh : Option (List Window)) : Courier :=
  { c with
    courier_type := nt.getD c.courier_type
    regions := nr.getD c.regions
    working_hours := nh.getD c.working_hours }

/-- The "drop orders with non-matching regions" bulk update of
`CourierSerializer.update`: unlink every incomplete order of the batch
whose region is not among the courier's (new) regions. -/
def enforceRegions (S : State) (bid : Nat) (regions : List Nat) : State :=
  { S with orders := S.orders.map fun o =>
      if (decide (o.batch = some bid) && decide (o.complete_time = none) &&
          !regions.contains o.region : Bool)
      then { o with batch := none } else o }

/-- The cached queryset of `CourierSerializer.update`: the batch's
incomplete orders by descending weight, evaluated once (after the region
eviction) and reused by both eviction loops. -/
def enforceCached (S : State) (bid : Nat) : List Order :=
  sortByWeightDesc ((ordersOfBatch S bid).filter fun o =>
    decide (o.complete_time = none))

/-- The "drop orders with non-matching schedule" loop of
`CourierSerializer.update`: walk the cached queryset and unlink every
order whose delivery hours do not intersect the new working hours. -/
def evictHours (wh : List Window) : List Order → State → State
  | [], St => St
  | o :: rest, St =>
    evictHours wh rest
      (if !has_intersection o.delivery_hours wh then setOrderBatch St o.order_id none
       else St)

/-- The "drop orders that are too heavy" loop of
`CourierSerializer.update`: walk the cached queryset, unlink each order,
and stop as soon as the recomputed total weight fits the capacity. -/
def evictWeight (cap : ℚ) (cid : Nat) : List Order → State → State
  | [], St => St
  | o :: rest, St =>
    if cap ≥ total_weight (setOrderBatch St o.order_id none) cid then
      setOrderBatch St o.order_id none
    else evictWeight cap cid rest (setOrderBatch St o.order_id none)

/-- "cancel the batch if there is nothing left": clear `current_courier`
when no order at all is linked to the batch. -/
def cancelIfEmpty (S : State) (bid : Nat) : State :=
  if (ordersOfBatch S bid).isEmpty then
    mapBatch S bid fun b => { b with current_courier := none }
  else S

/-- `CourierSerializer.update`: write the new profile fields, and when the
courier has a current batch run the consistency enforcement: bulk-unlink
incomplete orders with non-matching region, evaluate the cached
incomplete-orders-by-descending-weight queryset, unlink the orders with
non-matching schedule, cancel the batch if it is empty, and if the total
weight still exceeds the capacity walk the same cached queryset unlinking
orders until it fits, cancelling again if the batch ended up empty. -/
def courierUpdate (S : State) (c0 : Courier) (nt : Option CourierType)
    (nr : Option (List Nat)) (nh : Option (List Window)) : State :=
  let c := updateFields c0 nt nr nh
  let S1 := setCourier S c
  match current_batch S1 c.courier_id with
  | none => S1
  | some batch =>
    let S2 := enforceRegions S1 batch.id c.regions
    let cached := enforceCached S2 batch.id
    let S3 := evictHours c.working_hours cached S2
    let S4 := cancelIfEmpty S3 batch.id
    if c.capacity ≥ total_weight S4 c.courier_id then S4
    else cancelIfEmpty (evictWeight c.capacity c.courier_id cached S4) batch.id

/-- The courier-update endpoint: look the courier up, then run the
serializer update. -/
def updateOp (S : State) (cid : Nat) (nt : Option CourierType)
    (nr : Option (List Nat)) (nh : Option (List Window)) : State :=
  match findCourier S cid with
  | none => S
  | some c0 => courierUpdate S c0 nt nr nh

/-! ### Order completion (`CompleteSerializer`) -/

/-- `CompleteSerializer.validate_courier_id`: `false` means the serializer
raises "Order is not assigned to this courier".  The Python condition is
`batch is None or batch.current_courier is None and batch.past_courier is
None`, then `batch.current_courier and value != current.courier_id or
batch.past_courier and value != past.courier_id`. -/
def validate_courier_id (S : State) (o : Order) (value : Nat) : Bool :=
  match o.batch with
  | none => false
  | some bid =>
    match findBatch S bid with
    | none => false
    | some b =>
      if b.current_courier = none ∧ b.past_courier = none then false
      else if (b.current_courier.isSome ∧ b.current_courier ≠ some value) ∨
          (b.past_courier.isSome ∧ b.past_courier ≠ some value) then false
      else true

/-- The Django existence query of `CompleteSerializer.update`:
`Order.objects.filter(batch__current_courier=cc,
complete_time__isnull=True).exists()`.  When `cc` is a courier it is an
inner join on that courier; when `cc` is `None` the ORM turns it into
`batch__current_courier__isnull=True`, a left join that also matches
orders without a batch. -/
def incompleteExists (S : State) (cc : Option Nat) : Bool :=
  match cc with
  | some cid => S.orders.any fun p =>
      decide (p.complete_time = none) && decide (orderCourierId S p = some cid)
  | none => S.orders.any fun p =>
      decide (p.complete_time = none) && decide (orderCourierId S p = none)

/-- `CompleteSerializer.update`: a no-op when the order is already
complete; otherwise record the completion time, and if no incomplete
order is left on this courier close the batch by moving
`current_courier` into `past_courier`.  (When the order has no batch the
Python code would fail on `instance.batch.current_courier`; validation
rejects that case before `update` runs, so the `none` branch below is
never reached through `completeOp`.) -/
def completeUpdate (S : State) (o : Order) (t : Int) : State :=
  if o.complete_time.isSome then S
  else
    match o.batch with
    | none => setOrderComplete S o.order_id t
    | some bid =>
      if incompleteExists (setOrderComplete S o.order_id t)
          ((findBatch (setOrderComplete S o.order_id t) bid).bind
            Batch.current_courier) then
        setOrderComplete S o.order_id t
      else
        mapBatch (setOrderComplete S o.order_id t) bid fun b =>
          { b with past_courier := b.current_courier, current_courier := none }

/-- The complete endpoint: look the order up, run validation, and on
success run the serializer update. -/
def completeOp (S : State) (oid claimed : Nat) (t : Int) : State :=
  match findOrder S oid with
  | none => S
  | some o => if validate_courier_id S o claimed then completeUpdate S o t else S

/-! ### Rating (`CourierDetailSerializer.get_rating`) -/

/-- `obj.past_batches.all()`: the batches whose `past_courier` is this
courier, in storage order. -/
def past_batches (S : State) (cid : Nat) : List Batch :=
  S.batches.filter fun b => decide (b.past_courier = some cid)

/-- The inner loop of `get_rating`: walk a batch's orders accumulating
`start_time`, producing one `(region, elapsed seconds)` sample per order.
Python computes `order.complete_time - start_time` and would raise on a
missing `complete_time`; the `getD 0` placeholder is never exercised on
closed batches, whose orders are all complete. -/
def batchWalk : List Order → Int → List (Nat × Int)
  | [], _ => []
  | o :: rest, start =>
    let ct := o.complete_time.getD 0
    (o.region, ct - start) :: batchWalk rest ct

/-- `statistics.mean` over seconds, as a rational. -/
def listMean (l : List Int) : ℚ :=
  ((l.map fun z => (z : ℚ)).sum) / l.length

/-- Python's two-argument `min` (returns the first argument on ties). -/
def pyMin (a b : ℚ) : ℚ :=
  if a ≤ b then a else b

/-- `min` over a Python list; Python raises on an empty list, which never
happens in `get_rating` because a closed batch keeps at least one
(complete) order. -/
def listMin : List ℚ → ℚ
  | [] => 0
  | x :: xs => xs.foldl pyMin x

/-- The floor of a rational, written so that kernel reduction computes
it. -/
def ratFloor (q : ℚ) : ℤ :=
  Int.fdiv q.num q.den

/-- Python's `round` at a given precision rounds half to even. -/
def roundHalfEven (q : ℚ) : ℤ :=
  let f : ℤ := ratFloor q
  if q - (f : ℚ) < 1 / 2 then f
  else if (1 : ℚ) / 2 < q - (f : ℚ) then f + 1
  else if f % 2 = 0 then f else f + 1

/-- `round(x, 2)`. -/
def round2 (q : ℚ) : ℚ :=
  (roundHalfEven (q * 100) : ℚ) / 100

/-- The elapsed-time samples `get_rating` collects: for each past batch,
walk its orders in storage order (the source iterates the unordered
queryset `batch.orders.all()`). -/
def ratingSamples (S : State) (cid : Nat) : List (Nat × Int) :=
  (past_batches S cid).flatMap fun b => batchWalk (ordersOfBatch S b.id) b.assign_time

/-- The sample regions in first-appearance order (the `defaultdict`
keys). -/
def sampleRegions (samples : List (Nat × Int)) : List Nat :=
  (samples.map Prod.fst).dedup

/-- `CourierDetailSerializer.get_rating`: `none` when the courier has no
past batches (the representation then drops the `rating` key), else the
rounded rating built from the per-region mean delivery times. -/
def get_rating (S : State) (cid : Nat) : Option ℚ :=
  let batches := past_batches S cid
  if batches.isEmpty then none
  else
    let samples := ratingSamples S cid
    let avg_times := (sampleRegions samples).map fun r =>
      listMean ((samples.filter fun s => decide (s.1 = r)).map Prod.snd)
    let t := listMin avg_times
    some (round2 ((3600 - pyMin t 3600) / 3600 * 5))

/-! ### Reference definitions written from the spec's words, for
refinement comparisons -/

/-- Spec 4.2 step 1: "Select candidate orders: incomplete, unassigned to
any batch, `region ∈ courier.regions`." -/
def specCandidates (S : State) (c : Courier) : List Order :=
  S.orders.filter fun o =>
    decide (o.complete_time = none) && decide (o.batch = none) &&
      c.regions.contains o.region

/-- One step of spec 4.2 step 3, on an accumulator of accepted orders,
running weight and stopped flag: skip (do not break) a candidate whose
delivery hours do not intersect the working hours; accept a candidate iff
the running weight plus its weight fits the capacity; stop iterating at
the first hours-matching candidate that does not fit. -/
def specGreedyStep (wh : List Window) (cap : ℚ)
    (acc : List Order × ℚ × Bool) (o : Order) : List Order × ℚ × Bool :=
  if acc.2.2 then acc
  else if !has_intersection o.delivery_hours wh then acc
  else if acc.2.1 + o.weight ≤ cap then (acc.1 ++ [o], acc.2.1 + o.weight, false)
  else (acc.1, acc.2.1, true)

/-- Spec 4.2 step 3, written as a fold of `specGreedyStep` with an
explicit stopped flag. -/
def specGreedy (wh : List Window) (cap : ℚ) (cands : List Order) : List Order × ℚ :=
  let r := cands.foldl (specGreedyStep wh cap) ([], 0, false)
  (r.1, r.2.1)

/-- The order set the spec's assignment algorithm takes for a courier:
the greedy loop over the weight-sorted candidates. -/
def specAssignTaken (S : State) (c : Courier) : List Order × ℚ :=
  specGreedy c.working_hours c.capacity (sortByWeightAsc (specCandidates S c))

/-- The batch link currently stored for an order id. -/
def storedBatch (S : State) (oid : Nat) : Option (Option Nat) :=
  (findOrder S oid).map Order.batch

/-- Spec 4.3 step 4: "While total weight exceeds capacity, evict the
heaviest remaining order, recompute, repeat."  The list argument is the
batch's remaining incomplete orders in descending weight order, so its
head is the heaviest remaining order; the loop re-checks the recomputed
total before each eviction. -/
def specWeightLoop (cap : ℚ) (cid : Nat) : List Order → State → State
  | [], St => St
  | o :: rest, St =>
    if cap ≥ total_weight St cid then St
    else specWeightLoop cap cid rest (setOrderBatch St o.order_id none)

/-- Spec 4.3, the Consistency Enforcer: acts only if the courier has an
open batch; evicts incomplete orders with non-matching region, then those
with non-intersecting delivery hours (order-independent per the spec;
walked heaviest-first here); cancels the batch and stops if it holds zero
orders; otherwise, while the total remaining weight exceeds the capacity
of the new type, evicts the heaviest remaining order; finally cancels the
batch if the weight-driven eviction emptied it. -/
def courierUpdateSpec (S : State) (c0 : Courier) (nt : Option CourierType)
    (nr : Option (List Nat)) (nh : Option (List Window)) : State :=
  let c := updateFields c0 nt nr nh
  let S1 := setCourier S c
  match current_batch S1 c.courier_id with
  | none => S1
  | some batch =>
    let S2 := enforceRegions S1 batch.id c.regions
    let remaining := enforceCached S2 batch.id
    let S3 := evictHours c.working_hours remaining S2
    if (ordersOfBatch S3 batch.id).isEmpty then cancelIfEmpty S3 batch.id
    else
      let rem := remaining.filter fun o =>
        decide (storedBatch S3 o.order_id = some (some batch.id))
      cancelIfEmpty (specWeightLoop c.capacity c.courier_id rem S3) batch.id

/-- The spec-side update endpoint: look the courier up, then run the
spec's Consistency Enforcer. -/
def updateOpSpec (S : State) (cid : Nat) (nt : Option CourierType)
    (nr : Option (List Nat)) (nh : Option (List Window)) : State :=
  match findCourier S cid with
  | none => S
  | some c0 => courierUpdateSpec S c0 nt nr nh

/-- Ascending completion-time order of a batch's orders, as the spec's
rating definition walks them (all orders of a closed batch are complete,
so the `getD` default is never the deciding value there). -/
def sortByCompletion (l : List Order) : List Order :=
  l.insertionSort fun a b => a.complete_time.getD 0 ≤ b.complete_time.getD 0

/-- Spec 4.5, the reference rating: for each closed batch walk its orders
in ascending completion-time order taking elapsed-time samples, group the
samples by region, take the minimum `t` of the per-region means, and
return `round((3600 - min(t, 3600)) / 3600 * 5, 2)`; undefined without
closed batches. -/
def ratingSpec (S : State) (cid : Nat) : Option ℚ :=
  let batches := past_batches S cid
  if batches.isEmpty then none
  else
    let samples := batches.flatMap fun b =>
      batchWalk (sortByCompletion (ordersOfBatch S b.id)) b.assign_time
    let avg_times := (sampleRegions samples).map fun r =>
      listMean ((samples.filter fun s => decide (s.1 = r)).map Prod.snd)
    let t := listMin avg_times
    some (round2 ((3600 - pyMin t 3600) / 3600 * 5))

/-! ### State well-formedness

The conjuncts below are the facts the database schema and the three
mutating endpoints maintain together: validated weights are positive,
primary keys are unique, foreign keys resolve, `current_courier` is a
one-to-one field, a batch never has both courier fields set, open batches
respect the capacity, closed batches hold only completed orders, and
canceled batches hold no orders at all. -/

/-- Weights pass the `min_value=0.005` validation, so every stored weight
is nonnegative. -/
def WeightsOk (S : State) : Prop :=
  ∀ o ∈ S.orders, 0 ≤ o.weight

/-- Primary keys are unique. -/
def IdsOk (S : State) : Prop :=
  (S.orders.map Order.order_id).Nodup ∧ (S.batches.map Batch.id).Nodup ∧
    (S.couriers.map Courier.courier_id).Nodup

/-- Order-to-batch foreign keys resolve to an existing batch row. -/
def RefsOk (S : State) : Prop :=
  ∀ o ∈ S.orders, ∀ bid, o.batch = some bid → bid ∈ S.batches.map Batch.id

/-- `current_courier` is a `OneToOneField`: two batches never share a
current courier. -/
def UniqueCurrent (S : State) : Prop :=
  ∀ b1 ∈ S.batches, ∀ b2 ∈ S.batches, ∀ cid : Nat,
    b1.current_courier = some cid → b2.current_courier = some cid → b1.id = b2.id

/-- A batch is open, closed or canceled: never both courier fields set. -/
def NotBothSet (S : State) : Prop :=
  ∀ b ∈ S.batches, b.current_courier = none ∨ b.past_courier = none

/-- Every courier's live assigned weight fits its capacity. -/
def CapacityOk (S : State) : Prop :=
  ∀ c ∈ S.couriers, total_weight S c.courier_id ≤ c.capacity

/-- Orders still linked to a batch with a `past_courier` are complete. -/
def ClosedComplete (S : State) : Prop :=
  ∀ b ∈ S.batches, b.past_courier ≠ none →
    ∀ o ∈ S.orders, o.batch = some b.id → o.complete_time ≠ none

/-- A canceled batch (both courier fields null) has no linked orders. -/
def CanceledEmpty (S : State) : Prop :=
  ∀ b ∈ S.batches, b.current_courier = none → b.past_courier = none →
    ∀ o ∈ S.orders, o.batch ≠ some b.id

/-- The full state invariant. -/
def Inv (S : State) : Prop :=
  WeightsOk S ∧ IdsOk S ∧ RefsOk S ∧ UniqueCurrent S ∧ NotBothSet S ∧
    CapacityOk S ∧ ClosedComplete S ∧ CanceledEmpty S

/-- The state invariant without the capacity bound: the part that survives
a courier profile change before the consistency enforcement has run. -/
def InvNC (S : State) : Prop :=
  WeightsOk S ∧ IdsOk S ∧ RefsOk S ∧ UniqueCurrent S ∧ NotBothSet S ∧
    ClosedComplete S ∧ CanceledEmpty S

instance (S : State) : Decidable (WeightsOk S) := by
  unfold WeightsOk; infer_instance

instance (S : State) : Decidable (IdsOk S) := by
  unfold IdsOk; infer_instance

instance (S : State) : Decidable (RefsOk S) := by
  unfold RefsOk; infer_instance

instance (S : State) : Decidable (UniqueCurrent S) := by
  unfold UniqueCurrent; infer_instance

instance (S : State) : Decidable (NotBothSet S) := by
  unfold NotBothSet; infer_instance

instance (S : State) : Decidable (CapacityOk S) := by
  unfold CapacityOk; infer_instance

instance (S : State) : Decidable (ClosedComplete S) := by
  unfold ClosedComplete; infer_instance

instance (S : State) : Decidable (CanceledEmpty S) := by
  unfold CanceledEmpty; infer_instance

instance (S : State) : Decidable (Inv S) := by
  unfold Inv; infer_instance

/-- The incomplete weight carried by one batch, as the capacity invariant
of the spec states it. -/
def batchIncompleteWeight (S : State) (bid : Nat) : ℚ :=
  (((ordersOfBatch S bid).filter fun o => decide (o.complete_time = none)).map
    Order.weight).sum

/-- Spec section 8 capacity invariant, stated per open batch. -/
def ClaimCapacityOk (S : State) : Prop :=
  ∀ c ∈ S.couriers, ∀ b ∈ S.batches, b.current_courier = some c.courier_id →
    batchIncompleteWeight S b.id ≤ c.capacity

/-! ### Concrete states used by the witnesses and counterexamples -/

/-- The everywhere-open working window used by the examples. -/
def wAll : Window := ⟨"09:00", "18:00"⟩

/-- Scenario A courier: bike, regions 15 and 12, hours 09:00-18:00. -/
def scACourier : Courier := ⟨2, .bike, [15, 12], [wAll]⟩

/-- Scenario A order 1: weight 0.19, region 12, hours 16:00-18:00. -/
def scAOrder1 : Order := ⟨1, 19/100, 12, [⟨"16:00", "18:00"⟩], none, none⟩

/-- Scenario A order 2: weight 14.81, region 15, hours 08:00-09:01. -/
def scAOrder2 : Order := ⟨2, 1481/100, 15, [⟨"08:00", "09:01"⟩], none, none⟩

/-- Scenario A initial state. -/
def scAState : State := ⟨[scACourier], [], [scAOrder1, scAOrder2]⟩

/-- Scenario B: four orders of weight 4 in a matching region. -/
def scBOrder (i : Nat) : Order := ⟨i, 4, 15, [wAll], none, none⟩

/-- Scenario B initial state (courier capacity 15). -/
def scBState : State := ⟨[scACourier], [], [scBOrder 1, scBOrder 2, scBOrder 3, scBOrder 4]⟩

/-- A courier used by the response-order counterexample: foot, capacity 10. -/
def respCourier : Courier := ⟨1, .foot, [7], [wAll]⟩

/-- Response-order counterexample state: the heavier order (weight 5) was
inserted before the lighter one (weight 3); both fit the capacity. -/
def respState : State :=
  ⟨[respCourier], [], [⟨1, 5, 7, [wAll], none, none⟩, ⟨2, 3, 7, [wAll], none, none⟩]⟩

/-- Rating-bug state: one closed batch assigned at time 0 whose first
stored order completed at 7200 s and whose second stored order completed
at 3600 s, in two different regions. -/
def ratingBugState : State :=
  ⟨[⟨1, .bike, [1, 2], [wAll]⟩],
   [⟨1, some 1, none, 0, .bike⟩],
   [⟨1, 1, 1, [wAll], some 7200, some 1⟩, ⟨2, 1, 2, [wAll], some 3600, some 1⟩]⟩

/-- A courier with one open batch holding one incomplete order, used by
the completion witnesses. -/
def openBatchState : State :=
  ⟨[⟨3, .bike, [15], [wAll]⟩],
   [⟨1, none, some 3, 0, .bike⟩],
   [⟨1, 8, 15, [wAll], none, some 1⟩]⟩

/-- A courier with one closed batch holding one completed order, used by
the late-acknowledgement witness. -/
def closedBatchState : State :=
  ⟨[⟨3, .bike, [15], [wAll]⟩],
   [⟨1, some 3, none, 0, .bike⟩],
   [⟨1, 8, 15, [wAll], some 900, some 1⟩]⟩

/-- A state with an open two-order batch, used by the update and
completion witnesses. -/
def twoOrderBatchState : State :=
  ⟨[⟨3, .bike, [15, 16], [wAll]⟩],
   [⟨1, none, some 3, 0, .bike⟩],
   [⟨1, 8, 15, [wAll], none, some 1⟩, ⟨2, 2, 16, [wAll], none, some 1⟩]⟩

/-- Weights of the orders listed in an assign response, in response
order. -/
def responseWeights (S : State) (cid : Nat) : List ℚ :=
  (assignRepr S cid).orders.map fun oid => ((findOrder S oid).map Order.weight).getD 0

/-! ## Theorems -/

theorem find?_map_of_pred_inv {α : Type} (l : List α) (f : α → α) (p : α → Bool)
    (hp : ∀ a, p (f a) = p a) : (l.map f).find? p = (l.find? p).map f := by
  rw [List.find?_map]
  have : p ∘ f = p := funext hp
  rw [this]

theorem findOrder_mapOrders (S : State) (f : Order → Order)
    (hf : ∀ o, (f o).order_id = o.order_id) (oid : Nat) :
    findOrder { S with orders := S.orders.map f } oid = (findOrder S oid).map f := by
  unfold findOrder
  exact find?_map_of_pred_inv _ _ _ fun a => by simp [hf]

theorem findBatch_mapBatches (S : State) (f : Batch → Batch)
    (hf : ∀ b, (f b).id = b.id) (bid : Nat) :
    findBatch { S with batches := S.batches.map f } bid = (findBatch S bid).map f := by
  unfold findBatch
  exact find?_map_of_pred_inv _ _ _ fun a => by simp [hf]

theorem findOrder_mem (S : State) (oid : Nat) (o : Order)
    (h : findOrder S oid = some o) : o ∈ S.orders ∧ o.order_id = oid := by
  unfold findOrder at h
  refine ⟨List.mem_of_find?_eq_some h, ?_⟩
  have := List.find?_some h
  simpa using this

theorem findBatch_mem (S : State) (bid : Nat) (b : Batch)
    (h : findBatch S bid = some b) : b ∈ S.batches ∧ b.id = bid := by
  unfold findBatch at h
  refine ⟨List.mem_of_find?_eq_some h, ?_⟩
  have := List.find?_some h
  simpa using this

theorem findCourier_mem (S : State) (cid : Nat) (c : Courier)
    (h : findCourier S cid = some c) : c ∈ S.couriers ∧ c.courier_id = cid := by
  unfold findCourier at h
  refine ⟨List.mem_of_find?_eq_some h, ?_⟩
  have := List.find?_some h
  simpa using this

/-- C2: on a closed batch whose storage order differs from the
completion-time order, `get_rating` (which walks `batch.orders.all()` in
storage order) produces 10.0 — outside the design range 0..5 — while the
spec's reference definition, walking the orders in ascending
completion-time order, produces 0.0.  The code therefore does not
implement the claimed ascending completion-time walk. -/
theorem rating_walk_order_bug :
    get_rating ratingBugState 1 = some 10 ∧
    ratingSpec ratingBugState 1 = some 0 ∧
    get_rating ratingBugState 1 ≠ ratingSpec ratingBugState 1 := by
  have h1 : get_rating ratingBugState 1 = some 10 := by
    simp [get_rating, ratingBugState, past_batches, ratingSamples, ordersOfBatch,
      batchWalk, sampleRegions, listMean, listMin, pyMin, round2, roundHalfEven,
      ratFloor]
    norm_num
  have h2 : ratingSpec ratingBugState 1 = some 0 := by
    simp [ratingSpec, ratingBugState, past_batches, ordersOfBatch, sortByCompletion,
      List.insertionSort, List.orderedInsert, batchWalk, sampleRegions, listMean,
      listMin, pyMin, round2, roundHalfEven, ratFloor]
  refine ⟨h1, h2, ?_⟩
  rw [h1, h2]
  intro h
  exact absurd (Option.some.inj h) (by norm_num)

theorem find?_append_of_none {α : Type} (l1 l2 : List α) (p : α → Bool)
    (h : l1.find? p = none) : (l1 ++ l2).find? p = l2.find? p := by
  induction l1 with
  | nil => simp
  | cons a l ih =>
    simp only [List.cons_append, List.find?] at h ⊢
    cases hp : p a with
    | true => simp [hp] at h
    | false =>
      simp only [hp] at h ⊢
      exact ih h

theorem setOrderBatch_batches (S : State) (oid : Nat) (v : Option Nat) :
    (setOrderBatch S oid v).batches = S.batches := rfl

theorem setOrderBatch_couriers (S : State) (oid : Nat) (v : Option Nat) :
    (setOrderBatch S oid v).couriers = S.couriers := rfl

theorem foldl_setOrderBatch_batches (T : List Order) (v : Option Nat) (S : State) :
    (T.foldl (fun St o => setOrderBatch St o.order_id v) S).batches = S.batches := by
  induction T generalizing S with
  | nil => rfl
  | cons o T ih => rw [List.foldl_cons, ih, setOrderBatch_batches]

theorem foldl_setOrderBatch_couriers (T : List Order) (v : Option Nat) (S : State) :
    (T.foldl (fun St o => setOrderBatch St o.order_id v) S).couriers = S.couriers := by
  induction T generalizing S with
  | nil => rfl
  | cons o T ih => rw [List.foldl_cons, ih, setOrderBatch_couriers]

theorem assignSave_of_hasBatch (S : State) (c : Courier) (now : Int)
    (h : (current_batch S c.courier_id).isSome) : assignSave S c now = S := by
  unfold assignSave
  rw [if_pos h]

theorem assignSave_of_nothing_taken (S : State) (c : Courier) (now : Int)
    (h1 : ¬ (current_batch S c.courier_id).isSome)
    (h2 : (assignTaken S c).2 = 0) : assignSave S c now = S := by
  unfold assignSave
  rw [if_neg h1, if_pos h2]

theorem assignSave_of_created (S : State) (c : Courier) (now : Int)
    (h1 : ¬ (current_batch S c.courier_id).isSome)
    (h2 : (assignTaken S c).2 ≠ 0) :
    assignSave S c now = (assignTaken S c).1.foldl
      (fun St o => setOrderBatch St o.order_id (some (freshBatchId S)))
      { S with batches := S.batches ++ [assignNewBatch S c now] } := by
  unfold assignSave
  rw [if_neg h1, if_neg h2]

theorem assignSave_couriers (S : State) (c : Courier) (now : Int) :
    (assignSave S c now).couriers = S.couriers := by
  by_cases h1 : (current_batch S c.courier_id).isSome
  · rw [assignSave_of_hasBatch S c now h1]
  · by_cases h2 : (assignTaken S c).2 = 0
    · rw [assignSave_of_nothing_taken S c now h1 h2]
    · rw [assignSave_of_created S c now h1 h2]
      exact foldl_setOrderBatch_couriers _ _ _

theorem assignSave_batches_of_created (S : State) (c : Courier) (now : Int)
    (h1 : ¬ (current_batch S c.courier_id).isSome)
    (h2 : (assignTaken S c).2 ≠ 0) :
    (assignSave S c now).batches = S.batches ++ [assignNewBatch S c now] := by
  rw [assignSave_of_created S c now h1 h2]
  exact foldl_setOrderBatch_batches _ _ _

theorem assignSave_idem (S : State) (c : Courier) (t1 t2 : Int) :
    assignSave (assignSave S c t1) c t2 = assignSave S c t1 := by
  by_cases h1 : (current_batch S c.courier_id).isSome
  · rw [assignSave_of_hasBatch S c t1 h1, assignSave_of_hasBatch S c t2 h1]
  · by_cases h2 : (assignTaken S c).2 = 0
    · rw [assignSave_of_nothing_taken S c t1 h1 h2,
        assignSave_of_nothing_taken S c t2 h1 h2]
    · have hb := assignSave_batches_of_created S c t1 h1 h2
      have hsome : (current_batch (assignSave S c t1) c.courier_id).isSome := by
        unfold current_batch at h1 ⊢
        rw [hb]
        rw [Option.not_isSome_iff_eq_none] at h1
        rw [find?_append_of_none _ _ _ h1]
        simp [assignNewBatch]
      exact assignSave_of_hasBatch _ c t2 hsome

/-- C4 counterexample: after a first `Assign` taking the two Scenario A
orders, a second `Assign` with no intervening state change returns the
same non-empty order list again (with the original assign time), not an
empty result. -/
theorem assign_second_call_result_not_empty :
    assignRepr (assignOp (assignOp scAState 2 1000) 2 2000) 2
      = { orders := [1, 2], assign_time := some 1000 } ∧
    (assignRepr (assignOp (assignOp scAState 2 1000) 2 2000) 2).orders ≠ [] := by
  have hi1 : has_intersection [Window.mk "16:00" "18:00"] [Window.mk "09:00" "18:00"]
      = true := by decide
  have hi2 : has_intersection [Window.mk "08:00" "09:01"] [Window.mk "09:00" "18:00"]
      = true := by decide
  have h : assignRepr (assignOp (assignOp scAState 2 1000) 2 2000) 2
      = { orders := [1, 2], assign_time := some 1000 } := by
    norm_num [assignOp, assignSave, assignTaken, assignCandidates, assignNewBatch,
      assignRepr, scAState, scACourier, scAOrder1, scAOrder2, findCourier,
      current_batch, sortByWeightAsc, List.insertionSort, List.orderedInsert,
      takeOrders, hi1, hi2, wAll, Courier.capacity, COURIER_CAPACITIES,
      freshBatchId, setOrderBatch, ordersOfBatch]
  exact ⟨h, by rw [h]; simp⟩

/-- C4 (amended): a second `Assign` with no intervening state change is a
no-op — the state is unchanged (no new batch, no order link changes) and
the response simply repeats the first call's response (the existing
batch's incomplete orders and assign time), which is empty only when the
first call assigned nothing. -/
theorem assign_second_call_noop (S : State) (cid : Nat) (t1 t2 : Int) :
    assignOp (assignOp S cid t1) cid t2 = assignOp S cid t1 ∧
    assignRepr (assignOp (assignOp S cid t1) cid t2) cid
      = assignRepr (assignOp S cid t1) cid := by
  have hstate : assignOp (assignOp S cid t1) cid t2 = assignOp S cid t1 := by
    unfold assignOp
    cases h : findCourier S cid with
    | none => simp [h]
    | some c =>
      have hc : findCourier (assignSave S c t1) cid = some c := by
        unfold findCourier
        rw [assignSave_couriers]
        exact h
      rw [hc]
      exact assignSave_idem S c t1 t2
  exact ⟨hstate, by rw [hstate]⟩

/-- C9 counterexample: with the heavier order inserted first, `Assign`
takes both orders but the response lists them in storage order — weights
`[5, 3]` — which is not ascending-weight order. -/
theorem assign_response_order_counterexample :
    (assignRepr (assignOp respState 1 50) 1).orders = [1, 2] ∧
    responseWeights (assignOp respState 1 50) 1 = [5, 3] ∧
    ¬ List.Sorted (· ≤ ·) (responseWeights (assignOp respState 1 50) 1) := by
  have hiw : has_intersection [Window.mk "09:00" "18:00"] [Window.mk "09:00" "18:00"]
      = true := by decide
  have h : responseWeights (assignOp respState 1 50) 1 = [5, 3] := by
    norm_num [assignOp, assignSave, assignTaken, assignCandidates, assignNewBatch,
      assignRepr, respState, respCourier, findCourier, current_batch,
      sortByWeightAsc, List.insertionSort, List.orderedInsert, takeOrders,
      hiw, wAll, Courier.capacity, COURIER_CAPACITIES, freshBatchId,
      setOrderBatch, ordersOfBatch, responseWeights, findOrder]
  refine ⟨?_, h, ?_⟩
  · norm_num [assignOp, assignSave, assignTaken, assignCandidates, assignNewBatch,
      assignRepr, respState, respCourier, findCourier, current_batch,
      sortByWeightAsc, List.insertionSort, List.orderedInsert, takeOrders,
      hiw, wAll, Courier.capacity, COURIER_CAPACITIES, freshBatchId,
      setOrderBatch, ordersOfBatch]
  · rw [h]
    intro hs
    have := List.rel_of_sorted_cons hs 3 (by simp)
    norm_num at this

/-- C7: the completion call fails with "Order is not assigned to this
courier" exactly when the order's batch does not resolve to a row or the
claimed courier id matches neither `current_courier` nor `past_courier`
(given that no batch has both courier fields set, which every reachable
state satisfies); in particular a claimed id equal to `past_courier` of
an already-closed batch passes validation. -/
theorem complete_error_iff (S : State) (o : Order) (value : Nat)
    (hE : NotBothSet S) :
    (validate_courier_id S o value = false ↔
      (o.batch.bind (findBatch S) = none ∨
        ∀ b, o.batch.bind (findBatch S) = some b →
          b.current_courier ≠ some value ∧ b.past_courier ≠ some value)) ∧
    (∀ b, o.batch.bind (findBatch S) = some b → b.current_courier = none →
      b.past_courier = some value → validate_courier_id S o value = true) := by
  unfold validate_courier_id
  cases hob : o.batch with
  | none =>
    constructor
    · simp
    · intro b hb
      simp at hb
  | some bid =>
    simp only [Option.some_bind]
    cases hfb : findBatch S bid with
    | none =>
      constructor
      · simp
      · intro b hb
        simp at hb
    | some b =>
      have hbmem := (findBatch_mem S bid b hfb).1
      have hcp := hE b hbmem
      simp only [Option.some.injEq, forall_eq', reduceCtorEq, false_or]
      cases hcur : b.current_courier with
      | some c =>
        have hpast : b.past_courier = none := by
          rcases hcp with h | h
          · rw [hcur] at h; exact absurd h (by simp)
          · exact h
        constructor
        · by_cases hcv : c = value
          · subst hcv
            simp [hcur, hpast]
          · simp [hcur, hpast, hcv, Ne.symm hcv]
        · intro hb'cur
          exact absurd hb'cur (by simp)
      | none =>
        cases hpast : b.past_courier with
        | none =>
          constructor
          · simp [hcur, hpast]
          · intro _ hb'p
            exact absurd hb'p (by simp)
        | some p =>
          constructor
          · by_cases hpv : p = value
            · subst hpv
              simp [hcur, hpast]
            · simp [hcur, hpast, hpv, Ne.symm hpv]
          · intro _ hb'p
            have : p = value := by simpa using hb'p
            subst this
            simp

/-- C7 witness: completing against the closed batch of
`closedBatchState` with the claimed id equal to its past courier passes
validation. -/
theorem complete_error_iff_witness :
    validate_courier_id closedBatchState ⟨1, 8, 15, [wAll], some 900, some 1⟩ 3
      = true :=
  (complete_error_iff closedBatchState ⟨1, 8, 15, [wAll], some 900, some 1⟩ 3
    (by decide)).2 ⟨1, some 3, none, 0, .bike⟩ (by decide) (by decide) (by decide)

theorem mapBatch_orders (S : State) (bid : Nat) (f : Batch → Batch) :
    (mapBatch S bid f).orders = S.orders := rfl

theorem findOrder_setOrderComplete (S : State) (oid : Nat) (t : Int) (x : Nat) :
    findOrder (setOrderComplete S oid t) x = (findOrder S x).map fun o =>
      if o.order_id = oid then { o with complete_time := some t } else o := by
  unfold setOrderComplete
  exact findOrder_mapOrders S _ (fun o => by split <;> rfl) x

theorem completeUpdate_findOrder_self (S : State) (o : Order) (t : Int)
    (h : findOrder S o.order_id = some o) (hc : o.complete_time = none) :
    findOrder (completeUpdate S o t) o.order_id
      = some { o with complete_time := some t } := by
  unfold completeUpdate
  rw [if_neg (by simp [hc])]
  have hbase : findOrder (setOrderComplete S o.order_id t) o.order_id
      = some { o with complete_time := some t } := by
    rw [findOrder_setOrderComplete, h]
    simp
  cases hob : o.batch with
  | none =>
    rw [hob] at hbase
    exact hbase
  | some bid =>
    rw [hob] at hbase
    dsimp only
    by_cases hex : incompleteExists (setOrderComplete S o.order_id t)
        ((findBatch (setOrderComplete S o.order_id t) bid).bind
          Batch.current_courier) = true
    · rw [if_pos hex]
      exact hbase
    · rw [if_neg hex]
      exact hbase

/-- C8: completing an already-completed order succeeds without modifying
any state (whatever timestamp is supplied), and a repeated completion of
the same order with a second timestamp always leaves the state exactly as
after the first call — in particular `complete_time` keeps its first
value. -/
theorem completion_idempotent (S : State) (oid claimed : Nat) (t t2 : Int) :
    (∀ o, findOrder S oid = some o → o.complete_time.isSome →
      completeOp S oid claimed t = S) ∧
    completeOp (completeOp S oid claimed t) oid claimed t2
      = completeOp S oid claimed t := by
  have hfirst : ∀ (tx : Int) (o : Order), findOrder S oid = some o →
      o.complete_time.isSome → completeOp S oid claimed tx = S := by
    intro tx o ho hc
    unfold completeOp
    rw [ho]
    show (if validate_courier_id S o claimed = true then completeUpdate S o tx else S)
      = S
    split
    · unfold completeUpdate
      rw [if_pos hc]
    · rfl
  refine ⟨hfirst t, ?_⟩
  cases ho : findOrder S oid with
  | none =>
    have hS : ∀ tx : Int, completeOp S oid claimed tx = S := by
      intro tx
      unfold completeOp
      rw [ho]
    rw [hS t, hS t2]
  | some o =>
    by_cases hv : validate_courier_id S o claimed = true
    · by_cases hc : o.complete_time.isSome
      · rw [hfirst t o ho hc, hfirst t2 o ho hc]
      · have hcn : o.complete_time = none := Option.not_isSome_iff_eq_none.mp hc
        have hS : completeOp S oid claimed t = completeUpdate S o t := by
          unfold completeOp
          rw [ho]
          show (if validate_courier_id S o claimed = true then completeUpdate S o t
            else S) = completeUpdate S o t
          rw [if_pos hv]
        have hoid : o.order_id = oid := (findOrder_mem S oid o ho).2
        have ho' : findOrder (completeUpdate S o t) oid
            = some { o with complete_time := some t } := by
          rw [← hoid]
          exact completeUpdate_findOrder_self S o t (hoid ▸ ho) hcn
        rw [hS]
        unfold completeOp
        rw [ho']
        show (if validate_courier_id (completeUpdate S o t)
            { o with complete_time := some t } claimed = true then
            completeUpdate (completeUpdate S o t) { o with complete_time := some t } t2
          else completeUpdate S o t) = completeUpdate S o t
        split
        · unfold completeUpdate
          rw [if_pos (by simp)]
        · rfl
    · have hS : ∀ tx : Int, completeOp S oid claimed tx = S := by
        intro tx
        unfold completeOp
        rw [ho]
        show (if validate_courier_id S o claimed = true then completeUpdate S o tx
          else S) = S
        rw [if_neg hv]
      rw [hS t, hS t2]

/-- C8 witness: re-completing the already-completed order of
`closedBatchState` with a different timestamp changes nothing. -/
theorem completion_idempotent_witness :
    completeOp closedBatchState 1 3 999 = closedBatchState :=
  (completion_idempotent closedBatchState 1 3 999 0).1
    ⟨1, 8, 15, [wAll], some 900, some 1⟩ (by norm_num [findOrder, closedBatchState, wAll])
    (by decide)

theorem findBatch_setOrderComplete (S : State) (oid : Nat) (t : Int) (x : Nat) :
    findBatch (setOrderComplete S oid t) x = findBatch S x := rfl

theorem orderCourierId_some_iff (S : State) (p : Order) (c : Nat) :
    orderCourierId S p = some c ↔
      ∃ bid b, p.batch = some bid ∧ findBatch S bid = some b ∧
        b.current_courier = some c := by
  unfold orderCourierId
  cases hb : p.batch with
  | none => simp
  | some bid =>
    cases hf : findBatch S bid with
    | none => simp [hf]
    | some b' => simp [hf]

theorem findBatch_mapBatch_self (S : State) (bid : Nat) (f : Batch → Batch)
    (hf : ∀ b, (f b).id = b.id) (b : Batch) (hb : findBatch S bid = some b) :
    findBatch (mapBatch S bid f) bid = some (f b) := by
  unfold mapBatch
  rw [findBatch_mapBatches S _ (fun x => by split <;> simp [hf]) bid, hb]
  have hid : b.id = bid := (findBatch_mem S bid b hb).2
  simp [hid]

/-- C6: when a completion call first completes an order of an open batch
(the claimed id being the batch's current courier), the order's
`complete_time` is set to the given timestamp; if afterwards no other
incomplete order remains in the batch, the batch is closed —
`past_courier` becomes the old `current_courier` and `current_courier` is
cleared — and if an incomplete order remains the batch row is unchanged.
(`hU` is the one-to-one `current_batch` property of reachable states,
which makes the serializer's courier-wide existence query coincide with
this batch's orders.) -/
theorem complete_closes_batch (S : State) (oid cid : Nat) (t : Int)
    (o : Order) (b : Batch)
    (ho : findOrder S oid = some o) (hoc : o.complete_time = none)
    (hob : o.batch = some b.id) (hb : findBatch S b.id = some b)
    (hcur : b.current_courier = some cid) (hpast : b.past_courier = none)
    (hU : ∀ b2 ∈ S.batches, b2.current_courier = some cid → b2.id = b.id) :
    findOrder (completeOp S oid cid t) oid = some { o with complete_time := some t } ∧
    ((∃ p ∈ S.orders, p.order_id ≠ oid ∧ p.complete_time = none ∧
        p.batch = some b.id) →
      findBatch (completeOp S oid cid t) b.id = some b) ∧
    (¬ (∃ p ∈ S.orders, p.order_id ≠ oid ∧ p.complete_time = none ∧
        p.batch = some b.id) →
      findBatch (completeOp S oid cid t) b.id
        = some { b with past_courier := some cid, current_courier := none }) := by
  have hoid : o.order_id = oid := (findOrder_mem S oid o ho).2
  subst hoid
  have hvalid : validate_courier_id S o cid = true := by
    unfold validate_courier_id
    rw [hob]
    dsimp only
    rw [hb]
    simp [hcur, hpast]
  have hop : completeOp S o.order_id cid t = completeUpdate S o t := by
    unfold completeOp
    rw [ho]
    show (if validate_courier_id S o cid = true then completeUpdate S o t else S)
      = completeUpdate S o t
    rw [if_pos hvalid]
  have hcc : (findBatch (setOrderComplete S o.order_id t) b.id).bind
      Batch.current_courier = some cid := by
    rw [findBatch_setOrderComplete, hb]
    simpa using hcur
  have hexists_iff : incompleteExists (setOrderComplete S o.order_id t)
      ((findBatch (setOrderComplete S o.order_id t) b.id).bind
        Batch.current_courier) = true ↔
      ∃ p ∈ S.orders, p.order_id ≠ o.order_id ∧ p.complete_time = none ∧
        p.batch = some b.id := by
    rw [hcc]
    unfold incompleteExists
    rw [List.any_eq_true]
    constructor
    · rintro ⟨p', hp'mem, hp'⟩
      simp only [Bool.and_eq_true, decide_eq_true_eq] at hp'
      obtain ⟨hp'inc, hp'cid⟩ := hp'
      unfold setOrderComplete at hp'mem
      simp only [List.mem_map] at hp'mem
      obtain ⟨q, hqmem, hq⟩ := hp'mem
      by_cases hqid : q.order_id = o.order_id
      · rw [if_pos hqid] at hq
        rw [← hq] at hp'inc
        simp at hp'inc
      · rw [if_neg hqid] at hq
        subst hq
        rw [orderCourierId_some_iff] at hp'cid
        obtain ⟨bid', b', hqb, hfb', hb'cur⟩ := hp'cid
        rw [findBatch_setOrderComplete] at hfb'
        have hmem' := findBatch_mem S bid' b' hfb'
        have hbid' := hU b' hmem'.1 hb'cur
        rw [hmem'.2] at hbid'
        subst hbid'
        exact ⟨q, hqmem, hqid, hp'inc, hqb⟩
    · rintro ⟨p, hpmem, hpid, hpinc, hpb⟩
      refine ⟨p, ?_, ?_⟩
      · unfold setOrderComplete
        simp only [List.mem_map]
        exact ⟨p, hpmem, by rw [if_neg hpid]⟩
      · simp only [Bool.and_eq_true, decide_eq_true_eq]
        refine ⟨hpinc, ?_⟩
        rw [orderCourierId_some_iff]
        exact ⟨b.id, b, hpb, by rw [findBatch_setOrderComplete]; exact hb, hcur⟩
  have hupd : completeUpdate S o t =
      if incompleteExists (setOrderComplete S o.order_id t)
          ((findBatch (setOrderComplete S o.order_id t) b.id).bind
            Batch.current_courier) then
        setOrderComplete S o.order_id t
      else
        mapBatch (setOrderComplete S o.order_id t) b.id fun x =>
          { x with past_courier := x.current_courier, current_courier := none } := by
    unfold completeUpdate
    rw [if_neg (by simp [hoc]), hob]
  rw [hop, hupd]
  by_cases hex : ∃ p ∈ S.orders, p.order_id ≠ o.order_id ∧ p.complete_time = none ∧
      p.batch = some b.id
  · rw [if_pos (hexists_iff.mpr hex)]
    refine ⟨?_, fun _ => ?_, fun hne => absurd hex hne⟩
    · rw [findOrder_setOrderComplete, ho]
      simp
    · rw [findBatch_setOrderComplete]
      exact hb
  · rw [if_neg (fun hc => hex (hexists_iff.mp hc))]
    refine ⟨?_, fun hyes => absurd hyes hex, fun _ => ?_⟩
    · show findOrder (setOrderComplete S o.order_id t) o.order_id = _
      rw [findOrder_setOrderComplete, ho]
      simp
    · rw [findBatch_mapBatch_self (setOrderComplete S o.order_id t) b.id
        (fun x => { x with past_courier := x.current_courier, current_courier := none })
        (fun x => rfl) b (by rw [findBatch_setOrderComplete]; exact hb)]
      rw [hcur]

/-- C6 witness: completing the single incomplete order of
`openBatchState` records the timestamp and closes the batch. -/
theorem complete_closes_batch_witness :
    findOrder (completeOp openBatchState 1 3 500) 1
      = some ⟨1, 8, 15, [wAll], some 500, some 1⟩ ∧
    findBatch (completeOp openBatchState 1 3 500) 1
      = some ⟨1, some 3, none, 0, .bike⟩ := by
  have h := complete_closes_batch openBatchState 1 3 500
    ⟨1, 8, 15, [wAll], none, some 1⟩ ⟨1, none, some 3, 0, .bike⟩
    (by decide) (by decide) (by decide) (by decide) (by decide) (by decide)
    (by decide)
  exact ⟨h.1, h.2.2 (by decide)⟩

theorem specGreedy_stopped (wh : List Window) (cap : ℚ) (l : List Order)
    (tk : List Order) (w : ℚ) :
    l.foldl (specGreedyStep wh cap) (tk, w, true) = (tk, w, true) := by
  induction l with
  | nil => rfl
  | cons o rest ih => simpa [specGreedyStep] using ih

theorem specGreedy_go (wh : List Window) (cap : ℚ) (l : List Order)
    (tk : List Order) (w : ℚ) :
    (l.foldl (specGreedyStep wh cap) (tk, w, false)).1
        = tk ++ (takeOrders wh cap l w).1 ∧
    (l.foldl (specGreedyStep wh cap) (tk, w, false)).2.1
        = (takeOrders wh cap l w).2 := by
  induction l generalizing tk w with
  | nil => simp [takeOrders]
  | cons o rest ih =>
    by_cases hint : has_intersection o.delivery_hours wh
    · by_cases hfit : w + o.weight ≤ cap
      · have step : List.foldl (specGreedyStep wh cap) (tk, w, false) (o :: rest)
            = List.foldl (specGreedyStep wh cap) (tk ++ [o], w + o.weight, false) rest := by
          simp [specGreedyStep, hint, hfit]
        rw [step]
        have hrec := ih (tk ++ [o]) (w + o.weight)
        unfold takeOrders
        rw [if_neg (by simp [hint]), if_pos hfit]
        refine ⟨?_, hrec.2⟩
        rw [hrec.1, List.append_assoc]
        rfl
      · have step : List.foldl (specGreedyStep wh cap) (tk, w, false) (o :: rest)
            = List.foldl (specGreedyStep wh cap) (tk, w, true) rest := by
          simp [specGreedyStep, hint, hfit]
        rw [step, specGreedy_stopped]
        unfold takeOrders
        rw [if_neg (by simp [hint]), if_neg hfit]
        simp
    · have step : List.foldl (specGreedyStep wh cap) (tk, w, false) (o :: rest)
          = List.foldl (specGreedyStep wh cap) (tk, w, false) rest := by
        simp [specGreedyStep, hint]
      rw [step]
      have hrec := ih tk w
      unfold takeOrders
      rw [if_pos (by simp [hint])]
      exact hrec

theorem assignCandidates_eq_spec (S : State) (c : Courier) :
    assignCandidates S c = specCandidates S c := by
  unfold assignCandidates specCandidates
  apply List.filter_congr
  intro o _
  rw [Bool.and_comm (decide (o.batch = none)) (decide (o.complete_time = none))]

/-- C3: the assignment loop of `AssignSerializer.save` computes exactly
the spec's greedy algorithm — candidates are the incomplete, unassigned,
region-matching orders; iteration is ascending by weight; hours-mismatched
candidates are skipped without stopping; a candidate is accepted iff the
running weight plus its weight fits the capacity; iteration stops at the
first hours-matching candidate that does not fit — and on Scenario B
(four weight-4 orders against capacity 15) it takes exactly the first
three orders, total weight 12. -/
theorem assign_greedy_matches_spec (S : State) (c : Courier) :
    assignTaken S c = specAssignTaken S c ∧
    (assignTaken scBState scACourier).1.map Order.order_id = [1, 2, 3] ∧
    (assignTaken scBState scACourier).2 = 12 := by
  refine ⟨?_, ?_, ?_⟩
  · unfold assignTaken specAssignTaken specGreedy
    rw [assignCandidates_eq_spec]
    have h := specGreedy_go c.working_hours c.capacity
      (sortByWeightAsc (specCandidates S c)) [] 0
    rw [Prod.ext_iff]
    exact ⟨(h.1).symm, (h.2).symm⟩
  · have hiw : has_intersection [Window.mk "09:00" "18:00"]
        [Window.mk "09:00" "18:00"] = true := by decide
    norm_num [assignTaken, assignCandidates, takeOrders, sortByWeightAsc,
      List.insertionSort, List.orderedInsert, scBState, scBOrder, scACourier,
      Courier.capacity, COURIER_CAPACITIES, wAll, hiw]
  · have hiw : has_intersection [Window.mk "09:00" "18:00"]
        [Window.mk "09:00" "18:00"] = true := by decide
    norm_num [assignTaken, assignCandidates, takeOrders, sortByWeightAsc,
      List.insertionSort, List.orderedInsert, scBState, scBOrder, scACourier,
      Courier.capacity, COURIER_CAPACITIES, wAll, hiw]

/-- C9 (amended): the assign response lists the current batch's
incomplete orders in storage (insertion) order — not sorted by weight —
and in Scenario A, where storage order happens to coincide with ascending
weight, the two accepted orders are returned as `[1, 2]` with the assign
time set. -/
theorem assign_response_storage_order (S : State) (cid : Nat) :
    (∀ b, current_batch S cid = some b →
      (assignRepr S cid).orders = ((S.orders.filter fun o =>
        decide (o.complete_time = none) && decide (o.batch = some b.id)).map
          Order.order_id)) ∧
    assignRepr (assignOp scAState 2 1000) 2
      = { orders := [1, 2], assign_time := some 1000 } := by
  constructor
  · intro b hb
    unfold assignRepr
    rw [hb]
    dsimp only
    unfold ordersOfBatch
    rw [List.filter_filter]
  · have hi1 : has_intersection [Window.mk "16:00" "18:00"] [Window.mk "09:00" "18:00"]
        = true := by decide
    have hi2 : has_intersection [Window.mk "08:00" "09:01"] [Window.mk "09:00" "18:00"]
        = true := by decide
    norm_num [assignOp, assignSave, assignTaken, assignCandidates, assignNewBatch,
      assignRepr, scAState, scACourier, scAOrder1, scAOrder2, findCourier,
      current_batch, sortByWeightAsc, List.insertionSort, List.orderedInsert,
      takeOrders, hi1, hi2, wAll, Courier.capacity, COURIER_CAPACITIES,
      freshBatchId, setOrderBatch, ordersOfBatch]

/-- C9 amended-claim witness: on a state with an open two-order batch the
response is the batch's incomplete orders in storage order. -/
theorem assign_response_storage_order_witness :
    (assignRepr twoOrderBatchState 3).orders
      = ((twoOrderBatchState.orders.filter fun o =>
          decide (o.complete_time = none) && decide (o.batch = some 1)).map
            Order.order_id) :=
  (assign_response_storage_order twoOrderBatchState 3).1
    ⟨1, none, some 3, 0, .bike⟩ (by decide)

/-! ### Helper lemmas for the consistency-enforcer equivalence -/

theorem setCourier_batches (S : State) (c : Courier) :
    (setCourier S c).batches = S.batches := rfl

theorem setCourier_orders (S : State) (c : Courier) :
    (setCourier S c).orders = S.orders := rfl

theorem enforceRegions_batches (S : State) (bid : Nat) (rs : List Nat) :
    (enforceRegions S bid rs).batches = S.batches := rfl

theorem evictHours_batches (wh : List Window) (L : List Order) (S : State) :
    (evictHours wh L S).batches = S.batches := by
  induction L generalizing S with
  | nil => rfl
  | cons o rest ih =>
    unfold evictHours
    rw [ih]
    split <;> rfl

theorem cancelIfEmpty_of_nonEmpty (S : State) (bid : Nat)
    (h : ¬ (ordersOfBatch S bid).isEmpty = true) : cancelIfEmpty S bid = S := by
  unfold cancelIfEmpty
  rw [if_neg h]

theorem cancelIfEmpty_of_empty (S : State) (bid : Nat)
    (h : (ordersOfBatch S bid).isEmpty = true) :
    cancelIfEmpty S bid
      = mapBatch S bid fun b => { b with current_courier := none } := by
  unfold cancelIfEmpty
  rw [if_pos h]

theorem specWeightLoop_of_fits (cap : ℚ) (cid : Nat) (S : State)
    (h : cap ≥ total_weight S cid) :
    ∀ l : List Order, specWeightLoop cap cid l S = S := by
  intro l
  cases l with
  | nil => rfl
  | cons o rest =>
    unfold specWeightLoop
    rw [if_pos h]

theorem capacity_nonneg (c : Courier) : 0 ≤ c.capacity := by
  rcases c with ⟨cid, ty, r, w⟩
  cases ty
  · exact (by decide : (0 : ℚ) ≤ 10)
  · exact (by decide : (0 : ℚ) ≤ 15)
  · exact (by decide : (0 : ℚ) ≤ 50)

theorem total_weight_zero_of_no_current (S : State) (cid : Nat)
    (h : ∀ b ∈ S.batches, b.current_courier ≠ some cid) :
    total_weight S cid = 0 := by
  unfold total_weight
  apply List.sum_eq_zero
  intro x hx
  simp only [List.mem_map] at hx
  obtain ⟨o, ho, rfl⟩ := hx
  unfold contrib
  rw [if_neg]
  rintro ⟨hinc, hcid⟩
  rw [orderCourierId_some_iff] at hcid
  obtain ⟨bid, b, _, hfb, hbc⟩ := hcid
  exact h b (findBatch_mem S bid b hfb).1 hbc

theorem find?_id_of_mem {l : List Order}
    (hN : (l.map Order.order_id).Nodup) (q : Order) (hq : q ∈ l) :
    l.find? (fun o => decide (o.order_id = q.order_id)) = some q := by
  induction l with
  | nil => cases hq
  | cons a l ih =>
    rw [List.map_cons, List.nodup_cons] at hN
    rcases List.mem_cons.mp hq with rfl | hmem
    · simp [List.find?]
    · have hne : (decide (a.order_id = q.order_id)) = false := by
        simp only [decide_eq_false_iff_not]
        intro he
        exact hN.1 (he ▸ List.mem_map_of_mem Order.order_id hmem)
      simp only [List.find?, hne]
      exact ih hN.2 hmem

theorem findOrder_eq_of_mem (S : State) (q : Order) (hq : q ∈ S.orders)
    (hN : (S.orders.map Order.order_id).Nodup) :
    findOrder S q.order_id = some q :=
  find?_id_of_mem hN q hq

theorem setOrderBatch_eq_self (S : State) (oid : Nat) (v : Option Nat)
    (h : ∀ q ∈ S.orders, q.order_id = oid → q.batch = v) :
    setOrderBatch S oid v = S := by
  unfold setOrderBatch
  have hpt : ∀ a ∈ S.orders,
      (if a.order_id = oid then { a with batch := v } else a) = id a := by
    intro a ha
    simp only [id_eq]
    by_cases hid : a.order_id = oid
    · rw [if_pos hid, ← h a ha hid]
    · rw [if_neg hid]
  rw [List.map_congr_left hpt, List.map_id]

theorem setOrderBatch_ids (S : State) (oid : Nat) (v : Option Nat) :
    (setOrderBatch S oid v).orders.map Order.order_id
      = S.orders.map Order.order_id := by
  unfold setOrderBatch
  rw [List.map_map]
  apply List.map_congr_left
  intro a _
  simp only [Function.comp_apply]
  split <;> rfl

theorem storedBatch_setOrderBatch_ne (S : State) (oid : Nat) (v : Option Nat)
    (y : Nat) (h : y ≠ oid) :
    storedBatch (setOrderBatch S oid v) y = storedBatch S y := by
  unfold storedBatch
  rw [show findOrder (setOrderBatch S oid v) y = (findOrder S y).map
      (fun o => if o.order_id = oid then { o with batch := v } else o) from
    findOrder_mapOrders S _ (fun o => by split <;> rfl) y]
  cases hf : findOrder S y with
  | none => rfl
  | some row =>
    have hid := (findOrder_mem S y row hf).2
    have hrow : (if row.order_id = oid then { row with batch := v } else row) = row := by
      rw [if_neg (by rw [hid]; exact h)]
    simp [hrow]

theorem setOrderBatch_rows (S : State) (oid : Nat) (q' : Order)
    (h : q' ∈ (setOrderBatch S oid none).orders) :
    ∃ q ∈ S.orders, q'.order_id = q.order_id ∧
      (q' = q ∨ q' = { q with batch := none }) := by
  unfold setOrderBatch at h
  simp only [List.mem_map] at h
  obtain ⟨q, hq, hq'⟩ := h
  by_cases hid : q.order_id = oid
  · rw [if_pos hid] at hq'
    exact ⟨q, hq, by rw [← hq'], Or.inr hq'.symm⟩
  · rw [if_neg hid] at hq'
    exact ⟨q, hq, by rw [← hq'], Or.inl hq'.symm⟩

theorem evictHours_rows (wh : List Window) (L : List Order) (S : State)
    (q' : Order) (h : q' ∈ (evictHours wh L S).orders) :
    ∃ q ∈ S.orders, q'.order_id = q.order_id ∧
      (q' = q ∨ q' = { q with batch := none }) := by
  induction L generalizing S with
  | nil => exact ⟨q', h, rfl, Or.inl rfl⟩
  | cons o rest ih =>
    unfold evictHours at h
    have hstep := ih _ h
    obtain ⟨q2, hq2mem, hq2id, hq2⟩ := hstep
    by_cases hint : (!has_intersection o.delivery_hours wh) = true
    · rw [if_pos hint] at hq2mem
      obtain ⟨q, hq, hqid, hq'⟩ := setOrderBatch_rows S o.order_id q2 hq2mem
      refine ⟨q, hq, hq2id.trans hqid, ?_⟩
      rcases hq2 with rfl | rfl <;> rcases hq' with rfl | rfl <;> simp
    · rw [if_neg hint] at hq2mem
      exact ⟨q2, hq2mem, hq2id, hq2⟩

theorem enforceRegions_rows (S : State) (bid : Nat) (rs : List Nat) (q' : Order)
    (h : q' ∈ (enforceRegions S bid rs).orders) :
    ∃ q ∈ S.orders, q'.order_id = q.order_id ∧
      (q' = q ∨ q' = { q with batch := none }) := by
  unfold enforceRegions at h
  simp only [List.mem_map] at h
  obtain ⟨q, hq, hq'⟩ := h
  by_cases hc : (decide (q.batch = some bid) && decide (q.complete_time = none) &&
      !rs.contains q.region) = true
  · rw [if_pos hc] at hq'
    exact ⟨q, hq, by rw [← hq'], Or.inr hq'.symm⟩
  · rw [if_neg hc] at hq'
    exact ⟨q, hq, by rw [← hq'], Or.inl hq'.symm⟩

theorem enforceRegions_ids (S : State) (bid : Nat) (rs : List Nat) :
    (enforceRegions S bid rs).orders.map Order.order_id
      = S.orders.map Order.order_id := by
  unfold enforceRegions
  rw [List.map_map]
  apply List.map_congr_left
  intro a _
  simp only [Function.comp_apply]
  split <;> rfl

theorem evictHours_ids (wh : List Window) (L : List Order) (S : State) :
    (evictHours wh L S).orders.map Order.order_id
      = S.orders.map Order.order_id := by
  induction L generalizing S with
  | nil => rfl
  | cons o rest ih =>
    unfold evictHours
    rw [ih]
    split
    · exact setOrderBatch_ids S o.order_id none
    · rfl

theorem evictWeight_eq_specWeightLoop (cap : ℚ) (cid B : Nat) :
    ∀ (L : List Order) (St : State),
    ¬ cap ≥ total_weight St cid →
    (St.orders.map Order.order_id).Nodup →
    (L.map Order.order_id).Nodup →
    (∀ x ∈ L, ∀ q ∈ St.orders, q.order_id = x.order_id →
      q.batch = some B ∨ q.batch = none) →
    evictWeight cap cid L St
      = specWeightLoop cap cid
          (L.filter fun x => decide (storedBatch St x.order_id = some (some B))) St := by
  intro L
  induction L with
  | nil => intro St _ _ _ _; rfl
  | cons o rest ih =>
    intro St hpre hSN hLN hRows
    rw [List.map_cons, List.nodup_cons] at hLN
    by_cases hin : storedBatch St o.order_id = some (some B)
    · -- the head is still linked to the batch: both loops evict it
      rw [List.filter_cons_of_pos (by simpa using hin)]
      unfold evictWeight specWeightLoop
      rw [if_neg hpre]
      have hfilter : (rest.filter fun x =>
            decide (storedBatch St x.order_id = some (some B)))
          = rest.filter fun x =>
            decide (storedBatch (setOrderBatch St o.order_id none) x.order_id
              = some (some B)) := by
        apply List.filter_congr
        intro x hx
        have hne : x.order_id ≠ o.order_id := by
          intro he
          exact hLN.1 (he ▸ List.mem_map_of_mem Order.order_id hx)
        rw [storedBatch_setOrderBatch_ne St o.order_id none x.order_id hne]
      by_cases hcap : cap ≥ total_weight (setOrderBatch St o.order_id none) cid
      · rw [if_pos hcap, hfilter,
          specWeightLoop_of_fits cap cid _ hcap]
      · rw [if_neg hcap, hfilter]
        apply ih
        · exact hcap
        · rw [setOrderBatch_ids]; exact hSN
        · exact hLN.2
        · intro x hx q hq hqid
          obtain ⟨q0, hq0, hq0id, hq0or⟩ := setOrderBatch_rows St o.order_id q hq
          rcases hq0or with rfl | rfl
          · exact hRows x (List.mem_cons_of_mem o hx) q hq0 hqid
          · exact Or.inr rfl
    · -- the head was already evicted by the hours pass: a no-op for both
      have hnoop : setOrderBatch St o.order_id none = St := by
        apply setOrderBatch_eq_self
        intro q hq hqid
        rcases hRows o (List.mem_cons_self o rest) q hq hqid with hB | hnone
        · exfalso
          apply hin
          have : findOrder St o.order_id = some q := by
            rw [← hqid]
            exact findOrder_eq_of_mem St q hq hSN
          unfold storedBatch
          rw [this]
          simp [hB]
        · exact hnone
      rw [List.filter_cons_of_neg (by simpa using hin)]
      unfold evictWeight
      rw [hnoop, if_neg hpre]
      exact ih St hpre hSN hLN.2 fun x hx =>
        hRows x (List.mem_cons_of_mem o hx)

theorem courierUpdate_eq_spec (S : State) (c0 : Courier) (nt : Option CourierType)
    (nr : Option (List Nat)) (nh : Option (List Window))
    (hU : UniqueCurrent S) (hN : (S.orders.map Order.order_id).Nodup) :
    courierUpdate S c0 nt nr nh = courierUpdateSpec S c0 nt nr nh := by
  unfold courierUpdate courierUpdateSpec
  dsimp only
  cases hcb : current_batch (setCourier S (updateFields c0 nt nr nh))
      (updateFields c0 nt nr nh).courier_id with
  | none => rfl
  | some batch =>
    dsimp only
    set c := updateFields c0 nt nr nh with hc
    set S1 := setCourier S c with hS1
    set S2 := enforceRegions S1 batch.id c.regions with hS2
    set cached := enforceCached S2 batch.id with hcached
    set S3 := evictHours c.working_hours cached S2 with hS3
    have hb3 : S3.batches = S.batches := by
      rw [hS3, evictHours_batches, hS2, enforceRegions_batches, hS1,
        setCourier_batches]
    have hbatchmem : batch ∈ S.batches ∧
        batch.current_courier = some c.courier_id := by
      unfold current_batch at hcb
      refine ⟨?_, ?_⟩
      · have := List.mem_of_find?_eq_some hcb
        rwa [hS1, setCourier_batches] at this
      · have := List.find?_some hcb
        simpa using this
    have hN3 : (S3.orders.map Order.order_id).Nodup := by
      rw [hS3, evictHours_ids, hS2, enforceRegions_ids, hS1, setCourier_orders]
      exact hN
    have hN2 : (S2.orders.map Order.order_id).Nodup := by
      rw [hS2, enforceRegions_ids, hS1, setCourier_orders]
      exact hN
    by_cases hempt : (ordersOfBatch S3 batch.id).isEmpty = true
    · rw [if_pos hempt, cancelIfEmpty_of_empty S3 batch.id hempt]
      have htz : total_weight
          (mapBatch S3 batch.id fun b => { b with current_courier := none })
          c.courier_id = 0 := by
        apply total_weight_zero_of_no_current
        intro y hy
        unfold mapBatch at hy
        simp only [List.mem_map] at hy
        obtain ⟨x, hx, rfl⟩ := hy
        rw [hb3] at hx
        by_cases hxid : x.id = batch.id
        · rw [if_pos hxid]
          simp
        · rw [if_neg hxid]
          intro hxc
          exact hxid (hU x hx batch hbatchmem.1 c.courier_id hxc hbatchmem.2)
      rw [if_pos (by rw [htz]; exact capacity_nonneg c)]
    · rw [if_neg hempt, cancelIfEmpty_of_nonEmpty S3 batch.id hempt]
      by_cases hfits : c.capacity ≥ total_weight S3 c.courier_id
      · rw [if_pos hfits, specWeightLoop_of_fits c.capacity c.courier_id S3 hfits,
          cancelIfEmpty_of_nonEmpty S3 batch.id hempt]
      · rw [if_neg hfits]
        congr 1
        have hsub : List.Sublist ((ordersOfBatch S2 batch.id).filter
            (fun o => decide (o.complete_time = none))) S2.orders :=
          List.Sublist.trans (List.filter_sublist _) (List.filter_sublist _)
        have hcachedN : (cached.map Order.order_id).Nodup := by
          have hperm : List.Perm cached ((ordersOfBatch S2 batch.id).filter
              (fun o => decide (o.complete_time = none))) := by
            rw [hcached]
            unfold enforceCached sortByWeightDesc
            exact List.perm_insertionSort _ _
          refine ((hperm.map Order.order_id).nodup_iff).mpr ?_
          exact (hsub.map Order.order_id).nodup hN2
        have hcachedmem : ∀ x ∈ cached, x ∈ S2.orders ∧ x.batch = some batch.id := by
          intro x hx
          have hperm : List.Perm cached ((ordersOfBatch S2 batch.id).filter
              (fun o => decide (o.complete_time = none))) := by
            rw [hcached]
            unfold enforceCached sortByWeightDesc
            exact List.perm_insertionSort _ _
          have hx2 := hperm.mem_iff.mp hx
          have hx3 := List.mem_filter.mp hx2
          have hx4 := List.mem_filter.mp hx3.1
          refine ⟨hx4.1, by simpa using hx4.2⟩
        apply evictWeight_eq_specWeightLoop
        · exact hfits
        · exact hN3
        · exact hcachedN
        · intro x hx q hq hqid
          obtain ⟨hxS2, hxb⟩ := hcachedmem x hx
          rw [hS3] at hq
          obtain ⟨q0, hq0, hq0id, hq0or⟩ := evictHours_rows c.working_hours cached S2 q hq
          rcases hq0or with rfl | rfl
          · left
            have hqx : q = x := by
              have h1 := findOrder_eq_of_mem S2 q hq0 hN2
              have h2 := findOrder_eq_of_mem S2 x hxS2 hN2
              rw [hqid] at h1
              rw [h2] at h1
              exact (Option.some.inj h1).symm
            rw [hqx, hxb]
          · right
            rfl

/-- C5: `CourierSerializer.update` implements the spec's Consistency
Enforcer exactly, on every state whose `current_courier` links are
one-to-one and whose order ids are unique (as in every reachable state):
write the new profile fields; if the courier has no open batch, do
nothing else; otherwise evict incomplete orders with non-matching region,
then those with non-intersecting delivery hours, cancel the batch
(clearing only `current_courier`) if it holds zero orders, and otherwise
evict the heaviest remaining incomplete order while the total incomplete
weight exceeds the capacity of the new type, cancelling again if that
emptied the batch. -/
theorem update_matches_spec_enforcer (S : State) (cid : Nat)
    (nt : Option CourierType) (nr : Option (List Nat)) (nh : Option (List Window))
    (hU : UniqueCurrent S) (hN : (S.orders.map Order.order_id).Nodup) :
    updateOp S cid nt nr nh = updateOpSpec S cid nt nr nh := by
  unfold updateOp updateOpSpec
  cases hc0 : findCourier S cid with
  | none => rfl
  | some c0 => exact courierUpdate_eq_spec S c0 nt nr nh hU hN

/-- C5 witness: shrinking the regions of the courier with the open
two-order batch follows the spec enforcer on a concrete state. -/
theorem update_matches_spec_enforcer_witness :
    updateOp twoOrderBatchState 3 none (some [15]) none
      = updateOpSpec twoOrderBatchState 3 none (some [15]) none :=
  update_matches_spec_enforcer twoOrderBatchState 3 none (some [15]) none
    (by decide) (by decide)

/-! ### Generic lemmas for invariant preservation -/

theorem contrib_congr_batches (A B : State) (cid : Nat) (q : Order)
    (h : B.batches = A.batches) : contrib B cid q = contrib A cid q := by
  unfold contrib orderCourierId findBatch
  rw [h]

theorem contrib_nonneg (S : State) (cid : Nat) (q : Order) (h : 0 ≤ q.weight) :
    0 ≤ contrib S cid q := by
  unfold contrib
  split
  · exact h
  · exact le_refl 0

theorem contrib_of_batch_none (S : State) (cid : Nat) (q : Order)
    (h : q.batch = none) : contrib S cid q = 0 := by
  unfold contrib orderCourierId
  rw [h]
  simp

/-- Orders-only transformations that at most unlink rows from their
batch. -/
def EvictsOnly (A B : State) : Prop :=
  ∃ f : Order → Order, B.orders = A.orders.map f ∧
    ∀ a, (f a).order_id = a.order_id ∧ (f a = a ∨ f a = { a with batch := none })

theorem evictsOnly_refl (A : State) : EvictsOnly A A :=
  ⟨id, by simp, fun a => ⟨rfl, Or.inl rfl⟩⟩

theorem evictsOnly_trans {A B C : State} (h1 : EvictsOnly A B)
    (h2 : EvictsOnly B C) : EvictsOnly A C := by
  obtain ⟨f, hf, hfp⟩ := h1
  obtain ⟨g, hg, hgp⟩ := h2
  refine ⟨g ∘ f, by rw [hg, hf, List.map_map], fun a => ?_⟩
  refine ⟨by rw [Function.comp_apply, (hgp (f a)).1, (hfp a).1], ?_⟩
  rcases (hfp a).2 with hfa | hfa <;> rcases (hgp (f a)).2 with hga | hga <;>
    rw [Function.comp_apply]
  · rw [hga, hfa]
    exact Or.inl rfl
  · rw [hga, hfa]
    exact Or.inr rfl
  · rw [hga, hfa]
    exact Or.inr rfl
  · rw [hga, hfa]
    exact Or.inr rfl

theorem evictsOnly_setOrderBatch_none (A : State) (oid : Nat) :
    EvictsOnly A (setOrderBatch A oid none) := by
  refine ⟨fun o => if o.order_id = oid then { o with batch := none } else o,
    rfl, fun a => ?_⟩
  dsimp only
  by_cases hid : a.order_id = oid
  · rw [if_pos hid]
    exact ⟨rfl, Or.inr rfl⟩
  · rw [if_neg hid]
    exact ⟨rfl, Or.inl rfl⟩

theorem evictsOnly_enforceRegions (A : State) (bid : Nat) (rs : List Nat) :
    EvictsOnly A (enforceRegions A bid rs) := by
  refine ⟨fun o => if (decide (o.batch = some bid) &&
      decide (o.complete_time = none) && !rs.contains o.region : Bool)
      then { o with batch := none } else o, rfl, fun a => ?_⟩
  dsimp only
  split
  · exact ⟨rfl, Or.inr rfl⟩
  · exact ⟨rfl, Or.inl rfl⟩

theorem evictsOnly_evictHours (wh : List Window) (L : List Order) (A : State) :
    EvictsOnly A (evictHours wh L A) := by
  induction L generalizing A with
  | nil => exact evictsOnly_refl A
  | cons o rest ih =>
    unfold evictHours
    split
    · exact evictsOnly_trans (evictsOnly_setOrderBatch_none A o.order_id) (ih _)
    · exact ih A

theorem evictsOnly_specWeightLoop (cap : ℚ) (cid : Nat) (L : List Order) (A : State) :
    EvictsOnly A (specWeightLoop cap cid L A) := by
  induction L generalizing A with
  | nil => exact evictsOnly_refl A
  | cons o rest ih =>
    unfold specWeightLoop
    split
    · exact evictsOnly_refl A
    · exact evictsOnly_trans (evictsOnly_setOrderBatch_none A o.order_id) (ih _)

theorem evictsOnly_setOrderComplete (A : State) (oid : Nat) (t : Int) :
    EvictsOnly A (setOrderComplete A oid t) → True := fun _ => trivial

theorem evictsOnly_ids {A B : State} (h : EvictsOnly A B) :
    B.orders.map Order.order_id = A.orders.map Order.order_id := by
  obtain ⟨f, hf, hfp⟩ := h
  rw [hf, List.map_map]
  apply List.map_congr_left
  intro a _
  exact (hfp a).1

theorem evictsOnly_weights {A B : State} (h : EvictsOnly A B)
    (hW : WeightsOk A) : WeightsOk B := by
  obtain ⟨f, hf, hfp⟩ := h
  intro q' hq'
  rw [hf] at hq'
  simp only [List.mem_map] at hq'
  obtain ⟨q, hq, rfl⟩ := hq'
  rcases (hfp q).2 with hfa | hfa <;> rw [hfa]
  · exact hW q hq
  · exact hW q hq

theorem evictsOnly_total_weight_le {A B : State} (h : EvictsOnly A B)
    (hb : B.batches = A.batches) (hW : WeightsOk A) (cid : Nat) :
    total_weight B cid ≤ total_weight A cid := by
  obtain ⟨f, hf, hfp⟩ := h
  unfold total_weight
  rw [hf, List.map_map]
  apply List.sum_le_sum
  intro q hq
  rw [Function.comp_apply]
  rcases (hfp q).2 with hfa | hfa <;> rw [hfa]
  · rw [contrib_congr_batches A B cid q hb]
  · rw [contrib_of_batch_none B cid _ rfl]
    exact contrib_nonneg A cid q (hW q hq)

theorem evictsOnly_rows {A B : State} (h : EvictsOnly A B) (q' : Order)
    (hq' : q' ∈ B.orders) :
    ∃ q ∈ A.orders, q'.order_id = q.order_id ∧
      (q' = q ∨ q' = { q with batch := none }) := by
  obtain ⟨f, hf, hfp⟩ := h
  rw [hf] at hq'
  simp only [List.mem_map] at hq'
  obtain ⟨q, hq, rfl⟩ := hq'
  exact ⟨q, hq, (hfp q).1, (hfp q).2⟩

theorem mapBatch_ids (S : State) (bid : Nat) (f : Batch → Batch)
    (hf : ∀ b, (f b).id = b.id) :
    (mapBatch S bid f).batches.map Batch.id = S.batches.map Batch.id := by
  unfold mapBatch
  rw [List.map_map]
  apply List.map_congr_left
  intro a _
  simp only [Function.comp_apply]
  split
  · exact hf a
  · rfl

theorem total_weight_le_mapBatch_clear (S : State) (bid : Nat) (cid : Nat)
    (f : Batch → Batch) (hfid : ∀ b, (f b).id = b.id)
    (hfc : ∀ b, (f b).current_courier = none) (hW : WeightsOk S) :
    total_weight (mapBatch S bid f) cid ≤ total_weight S cid := by
  unfold total_weight
  apply List.sum_le_sum
  intro q hq
  by_cases hqb : ∃ bid2, q.batch = some bid2
  · obtain ⟨bid2, hbid2⟩ := hqb
    unfold contrib orderCourierId
    rw [hbid2]
    dsimp only
    rw [show findBatch (mapBatch S bid f) bid2 = (findBatch S bid2).map fun b =>
          if b.id = bid then f b else b from
      findBatch_mapBatches S _ (fun b => by split <;> simp [hfid]) bid2]
    cases hfb : findBatch S bid2 with
    | none => simp
    | some b2 =>
      by_cases hb2 : b2.id = bid
      · have hm : (Option.map (fun b => if b.id = bid then f b else b) (some b2))
            = some (f b2) := by simp [hb2]
        rw [hm]
        dsimp only
        rw [if_neg (by rintro ⟨_, hcc⟩; rw [hfc b2] at hcc; simp at hcc)]
        split
        · exact hW q hq
        · exact le_refl 0
      · have hm : (Option.map (fun b => if b.id = bid then f b else b) (some b2))
            = some b2 := by simp [hb2]
        rw [hm]
  · push_neg at hqb
    have hnone : q.batch = none := by
      cases hq2 : q.batch with
      | none => rfl
      | some x => exact absurd hq2 (hqb x)
    rw [contrib_of_batch_none _ cid q hnone, contrib_of_batch_none _ cid q hnone]

theorem setOrderComplete_ids (S : State) (oid : Nat) (t : Int) :
    (setOrderComplete S oid t).orders.map Order.order_id
      = S.orders.map Order.order_id := by
  unfold setOrderComplete
  rw [List.map_map]
  apply List.map_congr_left
  intro a _
  simp only [Function.comp_apply]
  split <;> rfl

theorem find?_batch_id_of_mem {l : List Batch}
    (hN : (l.map Batch.id).Nodup) (b : Batch) (hb : b ∈ l) :
    l.find? (fun x => decide (x.id = b.id)) = some b := by
  induction l with
  | nil => cases hb
  | cons a l ih =>
    rw [List.map_cons, List.nodup_cons] at hN
    rcases List.mem_cons.mp hb with rfl | hmem
    · simp [List.find?]
    · have hne : (decide (a.id = b.id)) = false := by
        simp only [decide_eq_false_iff_not]
        intro he
        exact hN.1 (he ▸ List.mem_map_of_mem Batch.id hmem)
      simp only [List.find?, hne]
      exact ih hN.2 hmem

theorem findBatch_eq_of_mem (S : State) (b : Batch) (hb : b ∈ S.batches)
    (hN : (S.batches.map Batch.id).Nodup) :
    findBatch S b.id = some b :=
  find?_batch_id_of_mem hN b hb

theorem total_weight_le_setOrderComplete (S : State) (oid : Nat) (t : Int)
    (cid : Nat) (hW : WeightsOk S) :
    total_weight (setOrderComplete S oid t) cid ≤ total_weight S cid := by
  unfold total_weight setOrderComplete
  rw [List.map_map]
  apply List.sum_le_sum
  intro q hq
  simp only [Function.comp_apply]
  by_cases hid : q.order_id = oid
  · rw [if_pos hid]
    have hz : contrib { S with orders := S.orders.map fun o =>
        if o.order_id = oid then { o with complete_time := some t } else o } cid
        { q with complete_time := some t } = 0 := by
      unfold contrib
      rw [if_neg]
      rintro ⟨hcc, _⟩
      simp at hcc
    rw [hz]
    exact contrib_nonneg S cid q (hW q hq)
  · rw [if_neg hid]
    exact le_of_eq (contrib_congr_batches S _ cid q rfl).symm

theorem inv_setOrderComplete (S : State) (oid : Nat) (t : Int) (h : Inv S) :
    Inv (setOrderComplete S oid t) := by
  unfold Inv at h ⊢
  obtain ⟨hW, hIds, hRefs, hU, hE, hCap, hClosed, hCanc⟩ := h
  have hrows : ∀ q' ∈ (setOrderComplete S oid t).orders, ∃ q ∈ S.orders,
      q' = if q.order_id = oid then { q with complete_time := some t } else q := by
    intro q' hq'
    unfold setOrderComplete at hq'
    simp only [List.mem_map] at hq'
    obtain ⟨q, hq, rfl⟩ := hq'
    exact ⟨q, hq, rfl⟩
  refine ⟨?_, ?_, ?_, hU, hE, ?_, ?_, ?_⟩
  · intro q' hq'
    obtain ⟨q, hq, rfl⟩ := hrows q' hq'
    split
    · exact hW q hq
    · exact hW q hq
  · exact ⟨by rw [setOrderComplete_ids]; exact hIds.1, hIds.2⟩
  · intro q' hq' bid hbid
    obtain ⟨q, hq, rfl⟩ := hrows q' hq'
    have hqb : q.batch = some bid := by
      revert hbid
      split <;> exact fun hh => hh
    exact hRefs q hq bid hqb
  · intro c hc
    exact le_trans (total_weight_le_setOrderComplete S oid t c.courier_id hW)
      (hCap c hc)
  · intro b hb hbp q' hq' hq'b
    obtain ⟨q, hq, rfl⟩ := hrows q' hq'
    have hqb : q.batch = some b.id := by
      revert hq'b
      split <;> exact fun hh => hh
    have := hClosed b hb hbp q hq hqb
    revert this
    split
    · intro _
      simp
    · exact fun hh => hh
  · intro b hb hbc hbp q' hq'
    obtain ⟨q, hq, rfl⟩ := hrows q' hq'
    have := hCanc b hb hbc hbp q hq
    revert this
    split <;> exact fun hh => hh

theorem validate_true_facts (S : State) (o : Order) (v : Nat)
    (h : validate_courier_id S o v = true) :
    ∃ bid b, o.batch = some bid ∧ findBatch S bid = some b ∧
      ¬ (b.current_courier = none ∧ b.past_courier = none) := by
  unfold validate_courier_id at h
  cases hob : o.batch with
  | none => rw [hob] at h; simp at h
  | some bid =>
    rw [hob] at h
    dsimp only at h
    cases hfb : findBatch S bid with
    | none => rw [hfb] at h; simp at h
    | some b =>
      rw [hfb] at h
      dsimp only at h
      refine ⟨bid, b, rfl, hfb, ?_⟩
      intro hboth
      rw [if_pos hboth] at h
      simp at h

theorem Inv_weights {S : State} (h : Inv S) : WeightsOk S := by
  unfold Inv at h; exact h.1

theorem Inv_ids {S : State} (h : Inv S) : IdsOk S := by
  unfold Inv at h; exact h.2.1

theorem Inv_refs {S : State} (h : Inv S) : RefsOk S := by
  unfold Inv at h; exact h.2.2.1

theorem Inv_unique {S : State} (h : Inv S) : UniqueCurrent S := by
  unfold Inv at h; exact h.2.2.2.1

theorem Inv_notboth {S : State} (h : Inv S) : NotBothSet S := by
  unfold Inv at h; exact h.2.2.2.2.1

theorem Inv_cap {S : State} (h : Inv S) : CapacityOk S := by
  unfold Inv at h; exact h.2.2.2.2.2.1

theorem Inv_closed {S : State} (h : Inv S) : ClosedComplete S := by
  unfold Inv at h; exact h.2.2.2.2.2.2.1

theorem Inv_canc {S : State} (h : Inv S) : CanceledEmpty S := by
  unfold Inv at h; exact h.2.2.2.2.2.2.2

theorem inv_close_batch (X : State) (bid : Nat) (b : Batch) (c : Nat)
    (hfb : findBatch X bid = some b) (hcur : b.current_courier = some c)
    (hX : Inv X) (hex : ¬ incompleteExists X (some c) = true) :
    Inv (mapBatch X bid fun x =>
      { x with past_courier := x.current_courier, current_courier := none }) := by
  have hbmem := findBatch_mem X bid b hfb
  have hBN : (X.batches.map Batch.id).Nodup := (Inv_ids hX).2.1
  have hrowb : ∀ x ∈ X.batches, x.id = bid → x = b := by
    intro x hx hxid
    have h1 := findBatch_eq_of_mem X x hx hBN
    rw [hxid, hfb] at h1
    exact (Option.some.inj h1).symm
  have hrows : ∀ y ∈ (mapBatch X bid fun x =>
      { x with past_courier := x.current_courier, current_courier := none }).batches,
      ∃ x ∈ X.batches, y = if x.id = bid then
        { x with past_courier := x.current_courier, current_courier := none }
        else x := by
    intro y hy
    unfold mapBatch at hy
    simp only [List.mem_map] at hy
    obtain ⟨x, hx, rfl⟩ := hy
    exact ⟨x, hx, rfl⟩
  unfold Inv at hX ⊢
  obtain ⟨hW, hIds, hRefs, hU, hE, hCap, hClosed, hCanc⟩ := hX
  refine ⟨hW, ?_, ?_, ?_, ?_, ?_, ?_, ?_⟩
  · exact ⟨hIds.1, by
      rw [mapBatch_ids X bid (fun x =>
        { x with past_courier := x.current_courier, current_courier := none })
        (fun x => rfl)]
      exact hIds.2.1, hIds.2.2⟩
  · intro q hq bid2 hqb
    rw [mapBatch_ids X bid (fun x =>
      { x with past_courier := x.current_courier, current_courier := none })
      (fun x => rfl)]
    exact hRefs q hq bid2 hqb
  · intro b1 hb1 b2 hb2 cid2 h1 h2
    obtain ⟨x1, hx1, rfl⟩ := hrows b1 hb1
    obtain ⟨x2, hx2, rfl⟩ := hrows b2 hb2
    by_cases hxid1 : x1.id = bid
    · rw [if_pos hxid1] at h1
      simp at h1
    · rw [if_neg hxid1] at h1 ⊢
      by_cases hxid2 : x2.id = bid
      · rw [if_pos hxid2] at h2
        simp at h2
      · rw [if_neg hxid2] at h2 ⊢
        exact hU x1 hx1 x2 hx2 cid2 h1 h2
  · intro y hy
    obtain ⟨x, hx, rfl⟩ := hrows y hy
    split
    · exact Or.inl rfl
    · exact hE x hx
  · intro c' hc'
    exact le_trans
      (total_weight_le_mapBatch_clear X bid c'.courier_id _
        (fun x => rfl) (fun x => rfl) hW)
      (hCap c' hc')
  · intro y hy hyp q hq hqb
    obtain ⟨x, hx, rfl⟩ := hrows y hy
    by_cases hxid : x.id = bid
    · rw [if_pos hxid] at hqb
      have hxb : x = b := hrowb x hx hxid
      subst hxb
      intro hqc
      apply hex
      unfold incompleteExists
      rw [List.any_eq_true]
      refine ⟨q, hq, ?_⟩
      simp only [Bool.and_eq_true, decide_eq_true_eq]
      refine ⟨hqc, ?_⟩
      rw [orderCourierId_some_iff]
      exact ⟨bid, x, by simpa [hxid] using hqb, hfb, hcur⟩
    · rw [if_neg hxid] at hqb hyp
      exact hClosed x hx hyp q hq hqb
  · intro y hy hyc hyp q hq
    obtain ⟨x, hx, rfl⟩ := hrows y hy
    by_cases hxid : x.id = bid
    · rw [if_pos hxid] at hyp
      have hxb : x = b := hrowb x hx hxid
      subst hxb
      dsimp only at hyp
      rw [hcur] at hyp
      simp at hyp
    · rw [if_neg hxid] at hyc hyp ⊢
      exact hCanc x hx hyc hyp q hq

theorem inv_completeOp (S : State) (oid claimed : Nat) (t : Int) (h : Inv S) :
    Inv (completeOp S oid claimed t) := by
  unfold completeOp
  cases ho : findOrder S oid with
  | none => exact h
  | some o =>
    show Inv (if validate_courier_id S o claimed = true then completeUpdate S o t else S)
    by_cases hv : validate_courier_id S o claimed = true
    case neg =>
      rw [if_neg hv]
      exact h
    rw [if_pos hv]
    by_cases hc : o.complete_time.isSome
    case pos =>
      unfold completeUpdate
      rw [if_pos hc]
      exact h
    have hcn : o.complete_time = none := Option.not_isSome_iff_eq_none.mp hc
    obtain ⟨bid, b, hob, hfb, hnb⟩ := validate_true_facts S o claimed hv
    have hbmem := findBatch_mem S bid b hfb
    have homem := findOrder_mem S oid o ho
    cases hcurb : b.current_courier with
    | none =>
      exfalso
      have hpast : b.past_courier ≠ none := fun hp => hnb ⟨hcurb, hp⟩
      have hobid : o.batch = some b.id := by rw [hob, hbmem.2]
      exact (Inv_closed h) b hbmem.1 hpast o homem.1 hobid hcn
    | some c =>
      have hupd : completeUpdate S o t =
          if incompleteExists (setOrderComplete S o.order_id t)
              ((findBatch (setOrderComplete S o.order_id t) bid).bind
                Batch.current_courier) then
            setOrderComplete S o.order_id t
          else
            mapBatch (setOrderComplete S o.order_id t) bid fun x =>
              { x with past_courier := x.current_courier, current_courier := none } := by
        unfold completeUpdate
        rw [if_neg (by simp [hcn]), hob]
      rw [hupd]
      have hS1 : Inv (setOrderComplete S o.order_id t) :=
        inv_setOrderComplete S o.order_id t h
      split
      · exact hS1
      · rename_i hex
        have hcc : (findBatch (setOrderComplete S o.order_id t) bid).bind
            Batch.current_courier = some c := by
          rw [findBatch_setOrderComplete, hfb]
          simpa using hcurb
        rw [hcc] at hex
        exact inv_close_batch (setOrderComplete S o.order_id t) bid b c
          (by rw [findBatch_setOrderComplete]; exact hfb) hcurb hS1 hex

theorem takeOrders_nil (wh : List Window) (cap : ℚ) (t : ℚ) :
    takeOrders wh cap [] t = ([], t) := rfl

theorem takeOrders_cons (wh : List Window) (cap : ℚ) (o : Order)
    (rest : List Order) (t : ℚ) :
    takeOrders wh cap (o :: rest) t =
      if !has_intersection o.delivery_hours wh then takeOrders wh cap rest t
      else if t + o.weight ≤ cap then
        (o :: (takeOrders wh cap rest (t + o.weight)).1,
          (takeOrders wh cap rest (t + o.weight)).2)
      else ([], t) := rfl

theorem takeOrders_sublist (wh : List Window) (cap : ℚ) :
    ∀ (l : List Order) (t : ℚ), List.Sublist (takeOrders wh cap l t).1 l := by
  intro l
  induction l with
  | nil => intro t; rw [takeOrders_nil]
  | cons o rest ih =>
    intro t
    rw [takeOrders_cons]
    by_cases h1 : !has_intersection o.delivery_hours wh
    · rw [if_pos h1]
      exact List.Sublist.cons o (ih t)
    · rw [if_neg h1]
      by_cases h2 : t + o.weight ≤ cap
      · rw [if_pos h2]
        exact List.Sublist.cons₂ o (ih (t + o.weight))
      · rw [if_neg h2]
        exact List.nil_sublist _

theorem takeOrders_total_le (wh : List Window) (cap : ℚ) :
    ∀ (l : List Order) (t : ℚ), t ≤ cap → (takeOrders wh cap l t).2 ≤ cap := by
  intro l
  induction l with
  | nil => intro t ht; rw [takeOrders_nil]; exact ht
  | cons o rest ih =>
    intro t ht
    rw [takeOrders_cons]
    by_cases h1 : !has_intersection o.delivery_hours wh
    · rw [if_pos h1]; exact ih t ht
    · rw [if_neg h1]
      by_cases h2 : t + o.weight ≤ cap
      · rw [if_pos h2]; exact ih (t + o.weight) h2
      · rw [if_neg h2]; exact ht

theorem takeOrders_sum (wh : List Window) (cap : ℚ) :
    ∀ (l : List Order) (t : ℚ),
      (takeOrders wh cap l t).2 =
        t + ((takeOrders wh cap l t).1.map Order.weight).sum := by
  intro l
  induction l with
  | nil => intro t; rw [takeOrders_nil]; simp
  | cons o rest ih =>
    intro t
    rw [takeOrders_cons]
    by_cases h1 : !has_intersection o.delivery_hours wh
    · rw [if_pos h1]; exact ih t
    · rw [if_neg h1]
      by_cases h2 : t + o.weight ≤ cap
      · rw [if_pos h2]
        dsimp only
        rw [List.map_cons, List.sum_cons, ih (t + o.weight)]
        ring
      · rw [if_neg h2]; simp

theorem mem_assignCandidates (S : State) (c : Courier) (o : Order)
    (h : o ∈ assignCandidates S c) :
    o ∈ S.orders ∧ o.batch = none ∧ o.complete_time = none := by
  unfold assignCandidates at h
  rw [List.mem_filter] at h
  have h2 := h.2
  simp only [Bool.and_eq_true, decide_eq_true_eq] at h2
  exact ⟨h.1, h2.1.1, h2.1.2⟩

theorem assignTaken_mem (S : State) (c : Courier) (o : Order)
    (h : o ∈ (assignTaken S c).1) : o ∈ assignCandidates S c := by
  unfold assignTaken at h
  have hs := (takeOrders_sublist c.working_hours c.capacity
    (sortByWeightAsc (assignCandidates S c)) 0).subset h
  unfold sortByWeightAsc at hs
  exact (List.perm_insertionSort _ _).subset hs

theorem assignTaken_ids_nodup (S : State) (c : Courier)
    (hN : (S.orders.map Order.order_id).Nodup) :
    ((assignTaken S c).1.map Order.order_id).Nodup := by
  have h1 : ((assignCandidates S c).map Order.order_id).Nodup := by
    unfold assignCandidates
    exact List.Nodup.sublist
      (List.Sublist.map Order.order_id (List.filter_sublist S.orders)) hN
  have h2 : ((sortByWeightAsc (assignCandidates S c)).map Order.order_id).Nodup := by
    have hp : List.Perm (sortByWeightAsc (assignCandidates S c))
        (assignCandidates S c) := List.perm_insertionSort _ _
    exact (List.Perm.nodup_iff (List.Perm.map Order.order_id hp)).mpr h1
  exact List.Nodup.sublist
    (List.Sublist.map Order.order_id (takeOrders_sublist _ _ _ _)) h2

theorem le_foldr_max (x : Nat) : ∀ l : List Nat, x ∈ l → x ≤ l.foldr max 0 := by
  intro l
  induction l with
  | nil => intro h; cases h
  | cons a l ih =>
    intro h
    rw [List.foldr_cons]
    rcases List.mem_cons.mp h with rfl | hm
    · exact le_max_left _ _
    · exact le_trans (ih hm) (le_max_right _ _)

theorem freshBatchId_not_mem (S : State) (bid : Nat)
    (h : bid ∈ S.batches.map Batch.id) : bid ≠ freshBatchId S := by
  intro he
  have hle := le_foldr_max bid _ h
  rw [he] at hle
  unfold freshBatchId at hle
  omega

theorem find?_append_left {α : Type} (l1 l2 : List α) (p : α → Bool) (a : α)
    (h : l1.find? p = some a) : (l1 ++ l2).find? p = some a := by
  induction l1 with
  | nil => simp [List.find?] at h
  | cons x l ih =>
    rw [List.cons_append]
    cases hp : p x with
    | true =>
      rw [List.find?_cons_of_pos _ hp] at h ⊢
      exact h
    | false =>
      rw [List.find?_cons_of_neg _ (ne_true_of_eq_false hp)] at h ⊢
      exact ih h

theorem foldl_setOrderBatch_orders (T : List Order) (v : Option Nat) (S : State) :
    (T.foldl (fun St o => setOrderBatch St o.order_id v) S).orders =
      S.orders.map fun q =>
        if q.order_id ∈ T.map Order.order_id then { q with batch := v } else q := by
  induction T generalizing S with
  | nil =>
    simp only [List.foldl_nil, List.map_nil]
    have hpt : ∀ a ∈ S.orders,
        (if a.order_id ∈ ([] : List Nat) then { a with batch := v } else a)
          = id a := by
      intro a _
      simp
    rw [List.map_congr_left hpt, List.map_id]
  | cons o T ih =>
    rw [List.foldl_cons, ih]
    unfold setOrderBatch
    dsimp only
    rw [List.map_map]
    apply List.map_congr_left
    intro q _
    simp only [Function.comp_apply]
    by_cases hq : q.order_id = o.order_id
    · rw [if_pos hq]
      have hm : q.order_id ∈ (o :: T).map Order.order_id := by
        rw [List.map_cons, hq]
        exact List.mem_cons_self _ _
      rw [if_pos hm]
      split <;> rfl
    · rw [if_neg hq, List.map_cons]
      by_cases hmem : q.order_id ∈ T.map Order.order_id
      · rw [if_pos hmem, if_pos (List.mem_cons_of_mem _ hmem)]
      · rw [if_neg hmem, if_neg (fun hc =>
          hmem ((List.mem_cons.mp hc).resolve_left hq))]

theorem sum_map_addQ (l : List Order) (f g : Order → ℚ) :
    (l.map fun o => f o + g o).sum = (l.map f).sum + (l.map g).sum := by
  induction l with
  | nil => simp
  | cons a l ih =>
    simp only [List.map_cons, List.sum_cons, ih]
    ring

theorem sum_if_id_zero (t : Order) (l : List Order)
    (h : ∀ o ∈ l, o.order_id ≠ t.order_id) :
    (l.map fun o => if o.order_id = t.order_id then o.weight else 0).sum = 0 := by
  apply List.sum_eq_zero
  intro x hx
  simp only [List.mem_map] at hx
  obtain ⟨o, ho, rfl⟩ := hx
  rw [if_neg (h o ho)]

theorem sum_if_id_eq (t : Order) : ∀ l : List Order,
    (l.map Order.order_id).Nodup → t ∈ l →
    (l.map fun o => if o.order_id = t.order_id then o.weight else 0).sum
      = t.weight := by
  intro l
  induction l with
  | nil => intro _ h; cases h
  | cons a l ih =>
    intro hN hm
    rw [List.map_cons, List.nodup_cons] at hN
    rw [List.map_cons, List.sum_cons]
    rcases List.mem_cons.mp hm with rfl | hml
    · have h0 : (l.map fun o =>
          if o.order_id = t.order_id then o.weight else 0).sum = 0 := by
        apply sum_if_id_zero
        intro o ho he
        apply hN.1
        rw [← he]
        exact List.mem_map_of_mem Order.order_id ho
      rw [if_pos rfl, h0, add_zero]
    · have hne : a.order_id ≠ t.order_id := by
        intro he
        apply hN.1
        rw [he]
        exact List.mem_map_of_mem Order.order_id hml
      rw [if_neg hne, ih hN.2 hml, zero_add]

theorem sum_if_mem (l : List Order) (hN : (l.map Order.order_id).Nodup) :
    ∀ sub : List Order, (∀ t ∈ sub, t ∈ l) →
      (sub.map Order.order_id).Nodup →
      (l.map fun o =>
          if o.order_id ∈ sub.map Order.order_id then o.weight else 0).sum
        = (sub.map Order.weight).sum := by
  intro sub
  induction sub with
  | nil =>
    intro _ _
    simp only [List.map_nil, List.sum_nil]
    apply List.sum_eq_zero
    intro x hx
    simp only [List.mem_map] at hx
    obtain ⟨o, _, rfl⟩ := hx
    rw [if_neg (List.not_mem_nil _)]
  | cons t rest ih =>
    intro hsub hNs
    rw [List.map_cons, List.nodup_cons] at hNs
    have hpt : ∀ o ∈ l,
        (if o.order_id ∈ (t :: rest).map Order.order_id then o.weight else 0)
          = (if o.order_id = t.order_id then o.weight else 0)
            + (if o.order_id ∈ rest.map Order.order_id then o.weight else 0) := by
      intro o _
      rw [List.map_cons]
      by_cases h1 : o.order_id = t.order_id
      · rw [if_pos (by rw [h1]; exact List.mem_cons_self _ _), if_pos h1,
          if_neg (by rw [h1]; exact hNs.1), add_zero]
      · by_cases h2 : o.order_id ∈ rest.map Order.order_id
        · rw [if_pos (List.mem_cons_of_mem _ h2), if_neg h1, if_pos h2, zero_add]
        · rw [if_neg (fun hc => h2 ((List.mem_cons.mp hc).resolve_left h1)),
            if_neg h1, if_neg h2, add_zero]
    have hsplit := sum_map_addQ l
      (fun o => if o.order_id = t.order_id then o.weight else 0)
      (fun o => if o.order_id ∈ rest.map Order.order_id then o.weight else 0)
    rw [List.map_congr_left hpt, hsplit,
      sum_if_id_eq t l hN (hsub t (List.mem_cons_self _ _)),
      ih (fun x hx => hsub x (List.mem_cons_of_mem _ hx)) hNs.2,
      List.map_cons, List.sum_cons]

theorem find?_key_of_mem {α β : Type} [DecidableEq β] (key : α → β)
    {l : List α} (hN : (l.map key).Nodup) (q : α) (hq : q ∈ l) :
    l.find? (fun o => decide (key o = key q)) = some q := by
  induction l with
  | nil => cases hq
  | cons a l ih =>
    rw [List.map_cons, List.nodup_cons] at hN
    rcases List.mem_cons.mp hq with rfl | hmem
    · simp [List.find?]
    · have hne : (decide (key a = key q)) = false := by
        simp only [decide_eq_false_iff_not]
        intro he
        apply hN.1
        rw [he]
        exact List.mem_map_of_mem key hmem
      simp only [List.find?, hne]
      exact ih hN.2 hmem

theorem row_eq_of_key {α β : Type} [DecidableEq β] (key : α → β) (l : List α)
    (hN : (l.map key).Nodup) (a b : α) (ha : a ∈ l) (hb : b ∈ l)
    (hk : key a = key b) : a = b := by
  have h1 := find?_key_of_mem key hN a ha
  have h2 := find?_key_of_mem key hN b hb
  rw [hk] at h1
  rw [h1] at h2
  exact Option.some.inj h2

theorem current_batch_none_facts (S : State) (cid : Nat)
    (h : ¬ (current_batch S cid).isSome = true) :
    ∀ b ∈ S.batches, b.current_courier ≠ some cid := by
  intro b hb hc
  apply h
  unfold current_batch
  rw [List.find?_isSome]
  exact ⟨b, hb, by simp [hc]⟩

theorem inv_assignSave (S : State) (c : Courier) (now : Int)
    (hcmem : c ∈ S.couriers) (h : Inv S) : Inv (assignSave S c now) := by
  by_cases h1 : (current_batch S c.courier_id).isSome
  · rw [assignSave_of_hasBatch S c now h1]; exact h
  by_cases h2 : (assignTaken S c).2 = 0
  · rw [assignSave_of_nothing_taken S c now h1 h2]; exact h
  have hOrd : (assignSave S c now).orders =
      S.orders.map fun q =>
        if q.order_id ∈ (assignTaken S c).1.map Order.order_id
        then { q with batch := some (freshBatchId S) } else q := by
    rw [assignSave_of_created S c now h1 h2, foldl_setOrderBatch_orders]
  have hBat : (assignSave S c now).batches
      = S.batches ++ [assignNewBatch S c now] :=
    assignSave_batches_of_created S c now h1 h2
  have hCou : (assignSave S c now).couriers = S.couriers :=
    assignSave_couriers S c now
  unfold Inv at h ⊢
  obtain ⟨hW, hIds, hRefs, hU, hE, hCap, hClosed, hCanc⟩ := h
  have hNodupO : (S.orders.map Order.order_id).Nodup := hIds.1
  have hNodupB : (S.batches.map Batch.id).Nodup := hIds.2.1
  have hNodupC : (S.couriers.map Courier.courier_id).Nodup := hIds.2.2
  have hTmem : ∀ t ∈ (assignTaken S c).1,
      t ∈ S.orders ∧ t.batch = none ∧ t.complete_time = none :=
    fun t ht => mem_assignCandidates S c t (assignTaken_mem S c t ht)
  have hTN : ((assignTaken S c).1.map Order.order_id).Nodup :=
    assignTaken_ids_nodup S c hNodupO
  have hnocur : ∀ b ∈ S.batches, b.current_courier ≠ some c.courier_id :=
    current_batch_none_facts S c.courier_id h1
  have hfb2_old : ∀ bid b, findBatch S bid = some b →
      findBatch (assignSave S c now) bid = some b := by
    intro bid b hb
    unfold findBatch at hb ⊢
    rw [hBat]
    exact find?_append_left _ _ _ _ hb
  have hfb2_new : findBatch (assignSave S c now) (freshBatchId S)
      = some (assignNewBatch S c now) := by
    unfold findBatch
    rw [hBat]
    have hn : (S.batches.find? fun x => decide (x.id = freshBatchId S)) = none := by
      rw [List.find?_eq_none]
      intro b hb
      simp only [decide_eq_true_eq]
      exact freshBatchId_not_mem S b.id (List.mem_map_of_mem Batch.id hb)
    rw [find?_append_of_none _ _ _ hn]
    rw [List.find?_cons_of_pos _ (by simp [assignNewBatch])]
  refine ⟨?_, ?_, ?_, ?_, ?_, ?_, ?_, ?_⟩
  · intro o ho
    rw [hOrd] at ho
    obtain ⟨q, hq, rfl⟩ := List.mem_map.mp ho
    split <;> exact hW q hq
  · refine ⟨?_, ?_, ?_⟩
    · have he : (assignSave S c now).orders.map Order.order_id
          = S.orders.map Order.order_id := by
        rw [hOrd, List.map_map]
        apply List.map_congr_left
        intro a _
        simp only [Function.comp_apply]
        split <;> rfl
      rw [he]
      exact hNodupO
    · rw [hBat, List.map_append]
      refine List.Nodup.append hNodupB (List.nodup_singleton _) ?_
      intro x hx1 hx2
      simp only [List.map_cons, List.map_nil, List.mem_singleton] at hx2
      exact freshBatchId_not_mem S x hx1 (hx2.trans rfl)
    · rw [hCou]
      exact hNodupC
  · intro o ho bid hb
    rw [hOrd] at ho
    obtain ⟨q, hq, rfl⟩ := List.mem_map.mp ho
    rw [hBat, List.map_append, List.mem_append]
    by_cases hm : q.order_id ∈ (assignTaken S c).1.map Order.order_id
    · right
      rw [if_pos hm] at hb
      have hb2 : some (freshBatchId S) = some bid := hb
      have hbid : bid = freshBatchId S := (Option.some.inj hb2).symm
      simp only [List.map_cons, List.map_nil, List.mem_singleton]
      exact hbid.trans rfl
    · left
      rw [if_neg hm] at hb
      exact hRefs q hq bid hb
  · intro b1 hb1 b2 hb2 cid hc1 hc2
    rw [hBat] at hb1 hb2
    rcases List.mem_append.mp hb1 with hb1 | hb1
    · rcases List.mem_append.mp hb2 with hb2 | hb2
      · exact hU b1 hb1 b2 hb2 cid hc1 hc2
      · exfalso
        rw [List.mem_singleton] at hb2
        rw [hb2] at hc2
        have hc2' : some c.courier_id = some cid := hc2
        rw [← Option.some.inj hc2'] at hc1
        exact hnocur b1 hb1 hc1
    · rcases List.mem_append.mp hb2 with hb2 | hb2
      · exfalso
        rw [List.mem_singleton] at hb1
        rw [hb1] at hc1
        have hc1' : some c.courier_id = some cid := hc1
        rw [← Option.some.inj hc1'] at hc2
        exact hnocur b2 hb2 hc2
      · rw [List.mem_singleton] at hb1 hb2
        rw [hb1, hb2]
  · intro b hb
    rw [hBat] at hb
    rcases List.mem_append.mp hb with hb | hb
    · exact hE b hb
    · rw [List.mem_singleton] at hb
      rw [hb]
      exact Or.inr rfl
  · intro c' hc'
    rw [hCou] at hc'
    by_cases hcid : c'.courier_id = c.courier_id
    · have hceq : c' = c :=
        row_eq_of_key Courier.courier_id S.couriers hNodupC c' c hc' hcmem hcid
      rw [hceq]
      have hlist : S.orders.map
          (contrib (assignSave S c now) c.courier_id ∘ fun q =>
            if q.order_id ∈ (assignTaken S c).1.map Order.order_id
            then { q with batch := some (freshBatchId S) } else q)
          = S.orders.map (fun q =>
            if q.order_id ∈ (assignTaken S c).1.map Order.order_id
            then q.weight else 0) := by
        apply List.map_congr_left
        intro q hq
        simp only [Function.comp_apply]
        by_cases hm : q.order_id ∈ (assignTaken S c).1.map Order.order_id
        · rw [if_pos hm, if_pos hm]
          obtain ⟨t, ht, hteq⟩ : ∃ t ∈ (assignTaken S c).1,
              q.order_id = t.order_id := by
            simp only [List.mem_map] at hm
            obtain ⟨t, ht, he⟩ := hm
            exact ⟨t, ht, he.symm⟩
          have hqt : q = t :=
            row_eq_of_key Order.order_id S.orders hNodupO q t hq
              (hTmem t ht).1 hteq
          have hqc : q.complete_time = none := by
            rw [hqt]; exact (hTmem t ht).2.2
          have hqc2 : ({ q with batch := some (freshBatchId S) }
              : Order).complete_time = none := hqc
          have hoc : orderCourierId (assignSave S c now)
              { q with batch := some (freshBatchId S) }
              = some c.courier_id := by
            rw [orderCourierId_some_iff]
            exact ⟨freshBatchId S, assignNewBatch S c now, rfl, hfb2_new, rfl⟩
          unfold contrib
          rw [if_pos ⟨hqc2, hoc⟩]
        · rw [if_neg hm, if_neg hm]
          cases hqb : q.batch with
          | none => exact contrib_of_batch_none _ _ _ hqb
          | some bid =>
            unfold contrib
            rw [if_neg]
            rintro ⟨_, hoc⟩
            rw [orderCourierId_some_iff] at hoc
            obtain ⟨bid2, b, hqb2, hfb, hbc⟩ := hoc
            rw [hqb] at hqb2
            have hbid2 : bid2 = bid := (Option.some.inj hqb2).symm
            subst hbid2
            have hbm := findBatch_mem (assignSave S c now) bid2 b hfb
            rw [hBat] at hbm
            rcases List.mem_append.mp hbm.1 with hbmem | hbmem
            · exact hnocur b hbmem hbc
            · rw [List.mem_singleton] at hbmem
              exact freshBatchId_not_mem S bid2 (hRefs q hq bid2 hqb)
                (hbm.2.symm.trans ((congrArg Batch.id hbmem).trans rfl))
      unfold total_weight
      rw [hOrd, List.map_map, hlist,
        sum_if_mem S.orders hNodupO (assignTaken S c).1
          (fun t ht => (hTmem t ht).1) hTN]
      have hts' : (assignTaken S c).2
          = 0 + ((assignTaken S c).1.map Order.weight).sum :=
        takeOrders_sum c.working_hours c.capacity
          (sortByWeightAsc (assignCandidates S c)) 0
      have htl' : (assignTaken S c).2 ≤ c.capacity :=
        takeOrders_total_le c.working_hours c.capacity
          (sortByWeightAsc (assignCandidates S c)) 0 (capacity_nonneg c)
      rw [hts'] at htl'
      linarith
    · have hTW : total_weight (assignSave S c now) c'.courier_id
          = total_weight S c'.courier_id := by
        unfold total_weight
        rw [hOrd, List.map_map]
        apply congrArg List.sum
        apply List.map_congr_left
        intro q hq
        simp only [Function.comp_apply]
        by_cases hm : q.order_id ∈ (assignTaken S c).1.map Order.order_id
        · rw [if_pos hm]
          obtain ⟨t, ht, hteq⟩ : ∃ t ∈ (assignTaken S c).1,
              q.order_id = t.order_id := by
            simp only [List.mem_map] at hm
            obtain ⟨t, ht, he⟩ := hm
            exact ⟨t, ht, he.symm⟩
          have hqt : q = t :=
            row_eq_of_key Order.order_id S.orders hNodupO q t hq
              (hTmem t ht).1 hteq
          have hqb : q.batch = none := by
            rw [hqt]; exact (hTmem t ht).2.1
          rw [contrib_of_batch_none S c'.courier_id q hqb]
          unfold contrib
          rw [if_neg]
          rintro ⟨_, hoc⟩
          rw [orderCourierId_some_iff] at hoc
          obtain ⟨bid, b, hqb2, hfb, hbc⟩ := hoc
          have hbid : bid = freshBatchId S := by
            have hq2 : some (freshBatchId S) = some bid := hqb2
            exact (Option.some.inj hq2).symm
          rw [hbid, hfb2_new] at hfb
          have hbc2 : b.current_courier = some c'.courier_id := hbc
          rw [← Option.some.inj hfb] at hbc2
          have hbc3 : some c.courier_id = some c'.courier_id := hbc2
          exact hcid (Option.some.inj hbc3).symm
        · rw [if_neg hm]
          cases hqb : q.batch with
          | none =>
            rw [contrib_of_batch_none _ _ _ hqb,
              contrib_of_batch_none _ _ _ hqb]
          | some bid =>
            have hbidm := hRefs q hq bid hqb
            obtain ⟨b, hbm, hbid⟩ : ∃ b ∈ S.batches, b.id = bid := by
              simp only [List.mem_map] at hbidm
              obtain ⟨b, hb, he⟩ := hbidm
              exact ⟨b, hb, he⟩
            have hfbS : findBatch S bid = some b := by
              rw [← hbid]
              exact findBatch_eq_of_mem S b hbm hNodupB
            have horc : orderCourierId (assignSave S c now) q
                = orderCourierId S q := by
              unfold orderCourierId
              rw [hqb]
              dsimp only
              rw [hfbS, hfb2_old bid b hfbS]
            unfold contrib
            rw [horc]
      rw [hTW]
      exact hCap c' hc'
  · intro b hb hbp o ho hob
    rw [hBat] at hb
    rw [hOrd] at ho
    obtain ⟨q, hq, rfl⟩ := List.mem_map.mp ho
    rcases List.mem_append.mp hb with hb | hb
    · by_cases hm : q.order_id ∈ (assignTaken S c).1.map Order.order_id
      · exfalso
        rw [if_pos hm] at hob
        have hob2 : some (freshBatchId S) = some b.id := hob
        exact freshBatchId_not_mem S b.id
          (List.mem_map_of_mem Batch.id hb) (Option.some.inj hob2).symm
      · rw [if_neg hm] at hob ⊢
        exact hClosed b hb hbp q hq hob
    · exfalso
      rw [List.mem_singleton] at hb
      exact hbp ((congrArg Batch.past_courier hb).trans rfl)
  · intro b hb hbc hbp o ho
    rw [hBat] at hb
    rw [hOrd] at ho
    obtain ⟨q, hq, rfl⟩ := List.mem_map.mp ho
    rcases List.mem_append.mp hb with hb | hb
    · by_cases hm : q.order_id ∈ (assignTaken S c).1.map Order.order_id
      · rw [if_pos hm]
        intro he
        have he2 : some (freshBatchId S) = some b.id := he
        exact freshBatchId_not_mem S b.id
          (List.mem_map_of_mem Batch.id hb) (Option.some.inj he2).symm
      · rw [if_neg hm]
        exact hCanc b hb hbc hbp q hq
    · exfalso
      rw [List.mem_singleton] at hb
      rw [hb] at hbc
      have hbc2 : some c.courier_id = none := hbc
      exact Option.noConfusion hbc2

theorem inv_assignOp (S : State) (cid : Nat) (now : Int) (h : Inv S) :
    Inv (assignOp S cid now) := by
  unfold assignOp
  cases hf : findCourier S cid with
  | none => exact h
  | some c => exact inv_assignSave S c now (findCourier_mem S cid c hf).1 h

theorem setCourier_ids (S : State) (c : Courier) :
    (setCourier S c).couriers.map Courier.courier_id
      = S.couriers.map Courier.courier_id := by
  unfold setCourier
  rw [List.map_map]
  apply List.map_congr_left
  intro x _
  simp only [Function.comp_apply]
  split
  · rename_i hx; exact hx.symm
  · rfl

theorem mapBatch_couriers (S : State) (bid : Nat) (f : Batch → Batch) :
    (mapBatch S bid f).couriers = S.couriers := rfl

theorem enforceRegions_couriers (S : State) (bid : Nat) (rs : List Nat) :
    (enforceRegions S bid rs).couriers = S.couriers := rfl

theorem evictHours_couriers (wh : List Window) :
    ∀ (L : List Order) (S : State),
      (evictHours wh L S).couriers = S.couriers := by
  intro L
  induction L with
  | nil => intro S; rfl
  | cons o rest ih =>
    intro S
    unfold evictHours
    rw [ih]
    split <;> rfl

theorem specWeightLoop_batches (cap : ℚ) (cid : Nat) :
    ∀ (L : List Order) (S : State),
      (specWeightLoop cap cid L S).batches = S.batches := by
  intro L
  induction L with
  | nil => intro S; rfl
  | cons o rest ih =>
    intro S
    unfold specWeightLoop
    split
    · rfl
    · rw [ih, setOrderBatch_batches]

theorem specWeightLoop_couriers (cap : ℚ) (cid : Nat) :
    ∀ (L : List Order) (S : State),
      (specWeightLoop cap cid L S).couriers = S.couriers := by
  intro L
  induction L with
  | nil => intro S; rfl
  | cons o rest ih =>
    intro S
    unfold specWeightLoop
    split
    · rfl
    · rw [ih, setOrderBatch_couriers]

theorem cancelIfEmpty_couriers (S : State) (bid : Nat) :
    (cancelIfEmpty S bid).couriers = S.couriers := by
  unfold cancelIfEmpty
  split <;> rfl

theorem cancelIfEmpty_orders (S : State) (bid : Nat) :
    (cancelIfEmpty S bid).orders = S.orders := by
  unfold cancelIfEmpty
  split <;> rfl

theorem total_weight_congr (A B : State) (cid : Nat)
    (ho : B.orders = A.orders) (hb : B.batches = A.batches) :
    total_weight B cid = total_weight A cid := by
  unfold total_weight
  rw [ho]
  apply congrArg List.sum
  apply List.map_congr_left
  intro q _
  exact contrib_congr_batches A B cid q hb

theorem setOrderBatch_none_cleared (S : State) (oid : Nat) :
    ∀ q ∈ (setOrderBatch S oid none).orders, q.order_id = oid →
      q.batch = none := by
  intro q hq hid
  unfold setOrderBatch at hq
  simp only [List.mem_map] at hq
  obtain ⟨p, hp, rfl⟩ := hq
  by_cases hpe : p.order_id = oid
  · rw [if_pos hpe]
  · rw [if_neg hpe] at hid
    exact absurd hid hpe

theorem specWeightLoop_cap (cap : ℚ) (cid : Nat) (hcap : 0 ≤ cap) :
    ∀ (l : List Order) (St : State),
      (∀ q ∈ St.orders, contrib St cid q ≠ 0 →
        q.order_id ∈ l.map Order.order_id) →
      total_weight (specWeightLoop cap cid l St) cid ≤ cap := by
  intro l
  induction l with
  | nil =>
    intro St hcov
    have h0 : total_weight St cid = 0 := by
      unfold total_weight
      apply List.sum_eq_zero
      intro x hx
      simp only [List.mem_map] at hx
      obtain ⟨q, hq, rfl⟩ := hx
      by_contra hne
      exact absurd (hcov q hq hne) (List.not_mem_nil _)
    show total_weight St cid ≤ cap
    rw [h0]
    exact hcap
  | cons o rest ih =>
    intro St hcov
    unfold specWeightLoop
    split
    · rename_i hfit
      exact hfit
    · apply ih
      intro q hq hne
      obtain ⟨q0, hq0, hid, hdisj⟩ := setOrderBatch_rows St o.order_id q hq
      rcases hdisj with rfl | rfl
      · have hne0 : contrib St cid q ≠ 0 := by
          rw [← contrib_congr_batches St (setOrderBatch St o.order_id none)
            cid q (setOrderBatch_batches St o.order_id none)]
          exact hne
        have hq0ne : q.order_id ≠ o.order_id := by
          intro he
          exact hne (contrib_of_batch_none _ cid q
            (setOrderBatch_none_cleared St o.order_id q hq he))
        have hmem := hcov q hq0 hne0
        rw [List.map_cons] at hmem
        exact (List.mem_cons.mp hmem).resolve_left hq0ne
      · exact absurd (contrib_of_batch_none _ cid _ rfl) hne

theorem invNC_of_inv {S : State} (h : Inv S) : InvNC S := by
  unfold Inv at h
  unfold InvNC
  exact ⟨h.1, h.2.1, h.2.2.1, h.2.2.2.1, h.2.2.2.2.1, h.2.2.2.2.2.2.1,
    h.2.2.2.2.2.2.2⟩

theorem inv_of_invNC_cap {S : State} (h : InvNC S) (hc : CapacityOk S) :
    Inv S := by
  unfold InvNC at h
  unfold Inv
  exact ⟨h.1, h.2.1, h.2.2.1, h.2.2.2.1, h.2.2.2.2.1, hc, h.2.2.2.2.2.1,
    h.2.2.2.2.2.2⟩

theorem invNC_setCourier (S : State) (c : Courier) (h : InvNC S) :
    InvNC (setCourier S c) := by
  unfold InvNC at h ⊢
  obtain ⟨hW, hIds, hRefs, hU, hE, hClosed, hCanc⟩ := h
  refine ⟨?_, ?_, ?_, ?_, ?_, ?_, ?_⟩
  · intro o ho
    rw [setCourier_orders] at ho
    exact hW o ho
  · exact ⟨by rw [setCourier_orders]; exact hIds.1,
      by rw [setCourier_batches]; exact hIds.2.1,
      by rw [setCourier_ids]; exact hIds.2.2⟩
  · intro o ho bid hb
    rw [setCourier_orders] at ho
    rw [setCourier_batches]
    exact hRefs o ho bid hb
  · intro b1 hb1 b2 hb2 cid h1 h2
    rw [setCourier_batches] at hb1 hb2
    exact hU b1 hb1 b2 hb2 cid h1 h2
  · intro b hb
    rw [setCourier_batches] at hb
    exact hE b hb
  · intro b hb hbp o ho hob
    rw [setCourier_batches] at hb
    rw [setCourier_orders] at ho
    exact hClosed b hb hbp o ho hob
  · intro b hb hbc hbp o ho
    rw [setCourier_batches] at hb
    rw [setCourier_orders] at ho
    exact hCanc b hb hbc hbp o ho

theorem invNC_evictsOnly (A B : State) (h : EvictsOnly A B)
    (hb : B.batches = A.batches) (hc : B.couriers = A.couriers)
    (hA : InvNC A) : InvNC B := by
  unfold InvNC at hA ⊢
  obtain ⟨hW, hIds, hRefs, hU, hE, hClosed, hCanc⟩ := hA
  refine ⟨evictsOnly_weights h hW, ?_, ?_, ?_, ?_, ?_, ?_⟩
  · exact ⟨by rw [evictsOnly_ids h]; exact hIds.1,
      by rw [hb]; exact hIds.2.1, by rw [hc]; exact hIds.2.2⟩
  · intro o ho bid hob
    obtain ⟨q, hq, hid, hdisj⟩ := evictsOnly_rows h o ho
    rw [hb]
    rcases hdisj with h1 | h1
    · rw [h1] at hob
      exact hRefs q hq bid hob
    · rw [h1] at hob
      have hob2 : (none : Option Nat) = some bid := hob
      exact Option.noConfusion hob2
  · intro b1 hb1 b2 hb2 cid h1 h2
    rw [hb] at hb1 hb2
    exact hU b1 hb1 b2 hb2 cid h1 h2
  · intro b hb2
    rw [hb] at hb2
    exact hE b hb2
  · intro b hbm hbp o ho hob
    rw [hb] at hbm
    obtain ⟨q, hq, hid, hdisj⟩ := evictsOnly_rows h o ho
    rcases hdisj with h1 | h1
    · rw [h1] at hob ⊢
      exact hClosed b hbm hbp q hq hob
    · rw [h1] at hob
      have hob2 : (none : Option Nat) = some b.id := hob
      exact Option.noConfusion hob2
  · intro b hbm hbc hbp o ho
    rw [hb] at hbm
    obtain ⟨q, hq, hid, hdisj⟩ := evictsOnly_rows h o ho
    rcases hdisj with h1 | h1
    · rw [h1]
      exact hCanc b hbm hbc hbp q hq
    · rw [h1]
      intro hob
      have hob2 : (none : Option Nat) = some b.id := hob
      exact Option.noConfusion hob2

theorem invNC_cancelIfEmpty (X : State) (bid : Nat) (h : InvNC X) :
    InvNC (cancelIfEmpty X bid) := by
  by_cases he : (ordersOfBatch X bid).isEmpty = true
  case neg => rw [cancelIfEmpty_of_nonEmpty X bid he]; exact h
  rw [cancelIfEmpty_of_empty X bid he]
  have hnolink : ∀ o ∈ X.orders, o.batch ≠ some bid := by
    intro o ho hob
    unfold ordersOfBatch at he
    rw [List.isEmpty_iff, List.filter_eq_nil_iff] at he
    have h2 := he o ho
    simp only [decide_eq_true_eq] at h2
    exact h2 hob
  unfold InvNC at h ⊢
  obtain ⟨hW, hIds, hRefs, hU, hE, hClosed, hCanc⟩ := h
  have hrows : ∀ y ∈ (mapBatch X bid fun b =>
      { b with current_courier := none }).batches,
      ∃ x ∈ X.batches, y = if x.id = bid then
        { x with current_courier := none } else x := by
    intro y hy
    unfold mapBatch at hy
    simp only [List.mem_map] at hy
    obtain ⟨x, hx, rfl⟩ := hy
    exact ⟨x, hx, rfl⟩
  refine ⟨?_, ?_, ?_, ?_, ?_, ?_, ?_⟩
  · intro o ho
    rw [mapBatch_orders] at ho
    exact hW o ho
  · exact ⟨by rw [mapBatch_orders]; exact hIds.1,
      by rw [mapBatch_ids X bid (fun b => { b with current_courier := none })
        (fun x => rfl)]; exact hIds.2.1,
      hIds.2.2⟩
  · intro o ho bidq hob
    rw [mapBatch_orders] at ho
    rw [mapBatch_ids X bid (fun b => { b with current_courier := none })
      (fun x => rfl)]
    exact hRefs o ho bidq hob
  · intro b1 hb1 b2 hb2 cid h1 h2
    obtain ⟨x1, hx1, rfl⟩ := hrows b1 hb1
    obtain ⟨x2, hx2, rfl⟩ := hrows b2 hb2
    by_cases hx1e : x1.id = bid
    · rw [if_pos hx1e] at h1
      simp at h1
    · rw [if_neg hx1e] at h1 ⊢
      by_cases hx2e : x2.id = bid
      · rw [if_pos hx2e] at h2
        simp at h2
      · rw [if_neg hx2e] at h2 ⊢
        exact hU x1 hx1 x2 hx2 cid h1 h2
  · intro b hb2
    obtain ⟨x, hx, rfl⟩ := hrows b hb2
    split
    · exact Or.inl rfl
    · exact hE x hx
  · intro b hbm hbp o ho hob
    rw [mapBatch_orders] at ho
    obtain ⟨x, hx, rfl⟩ := hrows b hbm
    by_cases hxe : x.id = bid
    · rw [if_pos hxe] at hob
      have hob2 : o.batch = some x.id := hob
      rw [hxe] at hob2
      exact absurd hob2 (hnolink o ho)
    · rw [if_neg hxe] at hbp hob
      exact hClosed x hx hbp o ho hob
  · intro b hbm hbc hbp o ho
    rw [mapBatch_orders] at ho
    obtain ⟨x, hx, rfl⟩ := hrows b hbm
    by_cases hxe : x.id = bid
    · rw [if_pos hxe]
      intro hob
      have hob2 : o.batch = some x.id := hob
      rw [hxe] at hob2
      exact hnolink o ho hob2
    · rw [if_neg hxe] at hbc hbp ⊢
      exact hCanc x hx hbc hbp o ho

theorem inv_courierUpdateSpec (S : State) (c0 : Courier)
    (nt : Option CourierType) (nr : Option (List Nat))
    (nh : Option (List Window)) (h : Inv S) :
    Inv (courierUpdateSpec S c0 nt nr nh) := by
  unfold courierUpdateSpec
  dsimp only
  cases hcb : current_batch (setCourier S (updateFields c0 nt nr nh))
      (updateFields c0 nt nr nh).courier_id with
  | none =>
    have hnone : ∀ b ∈ S.batches,
        b.current_courier ≠ some (updateFields c0 nt nr nh).courier_id := by
      intro b hb hbc
      unfold current_batch at hcb
      rw [setCourier_batches] at hcb
      rw [List.find?_eq_none] at hcb
      have h2 := hcb b hb
      simp only [decide_eq_true_eq] at h2
      exact h2 hbc
    apply inv_of_invNC_cap (invNC_setCourier S _ (invNC_of_inv h))
    intro c' hc'
    unfold setCourier at hc'
    dsimp only at hc'
    simp only [List.mem_map] at hc'
    obtain ⟨x, hx, rfl⟩ := hc'
    have htw : ∀ cid, total_weight
        (setCourier S (updateFields c0 nt nr nh)) cid = total_weight S cid :=
      fun cid => total_weight_congr S _ cid (setCourier_orders _ _)
        (setCourier_batches _ _)
    rw [htw]
    split
    · rw [total_weight_zero_of_no_current S _ hnone]
      exact capacity_nonneg _
    · exact (Inv_cap h) x hx
  | some batch =>
    dsimp only
    set c := updateFields c0 nt nr nh with hcdef
    set S1 := setCourier S c with hS1
    set S2 := enforceRegions S1 batch.id c.regions with hS2
    set remaining := enforceCached S2 batch.id with hremdef
    set S3 := evictHours c.working_hours remaining S2 with hS3
    have hb1 : S1.batches = S.batches := by
      rw [hS1]; exact setCourier_batches S c
    have ho1 : S1.orders = S.orders := by
      rw [hS1]; exact setCourier_orders S c
    have hb2 : S2.batches = S.batches := by
      rw [hS2, enforceRegions_batches, hb1]
    have hb3 : S3.batches = S.batches := by
      rw [hS3, evictHours_batches, hb2]
    have hc2 : S2.couriers = S1.couriers := by
      rw [hS2]; exact enforceRegions_couriers S1 batch.id c.regions
    have hc3 : S3.couriers = S1.couriers := by
      rw [hS3, evictHours_couriers, hc2]
    have hNC1 : InvNC S1 := by
      rw [hS1]; exact invNC_setCourier S c (invNC_of_inv h)
    have hW1 : WeightsOk S1 := by
      have h2 := hNC1; unfold InvNC at h2; exact h2.1
    have hevict13 : EvictsOnly S1 S3 := by
      rw [hS3, hS2]
      exact evictsOnly_trans (evictsOnly_enforceRegions S1 batch.id c.regions)
        (evictsOnly_evictHours c.working_hours remaining _)
    have hNC3 : InvNC S3 :=
      invNC_evictsOnly S1 S3 hevict13 (by rw [hb3, hb1]) hc3 hNC1
    have hW3 : WeightsOk S3 := by
      have h2 := hNC3; unfold InvNC at h2; exact h2.1
    have hN3 : (S3.orders.map Order.order_id).Nodup := by
      have h2 := hNC3; unfold InvNC at h2; exact h2.2.1.1
    have hbatchmem : batch ∈ S.batches ∧
        batch.current_courier = some c.courier_id := by
      unfold current_batch at hcb
      refine ⟨?_, ?_⟩
      · have h2 := List.mem_of_find?_eq_some hcb
        rwa [hS1, setCourier_batches] at h2
      · have h2 := List.find?_some hcb
        simpa using h2
    have hcmono : ∀ cid, total_weight S3 cid ≤ total_weight S cid := by
      intro cid
      exact le_trans
        (evictsOnly_total_weight_le hevict13 (by rw [hb3, hb1]) hW1 cid)
        (le_of_eq (total_weight_congr S S1 cid ho1 hb1))
    have hrowsC : ∀ x' ∈ S1.couriers, x' = c ∨ x' ∈ S.couriers := by
      intro x' hx'
      rw [hS1] at hx'
      unfold setCourier at hx'
      dsimp only at hx'
      simp only [List.mem_map] at hx'
      obtain ⟨x, hx, rfl⟩ := hx'
      split
      · exact Or.inl rfl
      · exact Or.inr hx
    have hlink : ∀ q ∈ S3.orders, contrib S3 c.courier_id q ≠ 0 →
        q.batch = some batch.id ∧ q.complete_time = none := by
      intro q hq hne
      by_cases hcond : q.complete_time = none ∧
          orderCourierId S3 q = some c.courier_id
      case neg =>
        exact absurd (by unfold contrib; rw [if_neg hcond]) hne
      obtain ⟨hqc, hoc⟩ := hcond
      rw [orderCourierId_some_iff] at hoc
      obtain ⟨bid2, b, hqb, hfb, hbc⟩ := hoc
      have hbm := findBatch_mem S3 bid2 b hfb
      have hbmem2 : b ∈ S.batches := by rw [← hb3]; exact hbm.1
      have hid : b.id = batch.id :=
        (Inv_unique h) b hbmem2 batch hbatchmem.1 c.courier_id hbc hbatchmem.2
      refine ⟨?_, hqc⟩
      rw [hqb, ← hbm.2, hid]
    split
    · rename_i hempty
      have hzero3 : total_weight S3 c.courier_id = 0 := by
        unfold total_weight
        apply List.sum_eq_zero
        intro x hx
        simp only [List.mem_map] at hx
        obtain ⟨q, hq, rfl⟩ := hx
        by_contra hne
        have hl := (hlink q hq hne).1
        unfold ordersOfBatch at hempty
        rw [List.isEmpty_iff, List.filter_eq_nil_iff] at hempty
        have h2 := hempty q hq
        simp only [decide_eq_true_eq] at h2
        exact h2 hl
      apply inv_of_invNC_cap (invNC_cancelIfEmpty S3 batch.id hNC3)
      rw [cancelIfEmpty_of_empty S3 batch.id hempty]
      intro x' hx'
      rw [mapBatch_couriers] at hx'
      rw [hc3] at hx'
      have hle := total_weight_le_mapBatch_clear S3 batch.id x'.courier_id
        (fun b => { b with current_courier := none }) (fun b => rfl)
        (fun b => rfl) hW3
      rcases hrowsC x' hx' with h1 | h1
      · calc total_weight (mapBatch S3 batch.id fun b =>
              { b with current_courier := none }) x'.courier_id
            ≤ total_weight S3 x'.courier_id := hle
          _ = total_weight S3 c.courier_id := by rw [h1]
          _ = 0 := hzero3
          _ ≤ x'.capacity := by rw [h1]; exact capacity_nonneg c
      · exact le_trans hle
          (le_trans (hcmono x'.courier_id) ((Inv_cap h) x' h1))
    · rename_i hnempty
      set rem := remaining.filter (fun o =>
        decide (storedBatch S3 o.order_id = some (some batch.id))) with hremf
      set S5 := specWeightLoop c.capacity c.courier_id rem S3 with hS5
      have hcover : ∀ q ∈ S3.orders, contrib S3 c.courier_id q ≠ 0 →
          q.order_id ∈ rem.map Order.order_id := by
        intro q hq hne
        obtain ⟨hql, hqc⟩ := hlink q hq hne
        have hev23 : EvictsOnly S2 S3 := by
          rw [hS3]; exact evictsOnly_evictHours c.working_hours remaining S2
        obtain ⟨q2, hq2, hid2, hdisj⟩ := evictsOnly_rows hev23 q hq
        rcases hdisj with h1 | h1
        · have hq2l : q2.batch = some batch.id := by rw [← h1]; exact hql
          have hq2c : q2.complete_time = none := by rw [← h1]; exact hqc
          have hq2mem : q2 ∈ remaining := by
            rw [hremdef]
            unfold enforceCached
            unfold sortByWeightDesc
            rw [(List.perm_insertionSort _ _).mem_iff, List.mem_filter]
            constructor
            · unfold ordersOfBatch
              rw [List.mem_filter]
              exact ⟨hq2, by simp [hq2l]⟩
            · simp [hq2c]
          have hqfil : q ∈ rem := by
            rw [hremf, List.mem_filter]
            constructor
            · rw [h1]; exact hq2mem
            · have hfo : findOrder S3 q.order_id = some q :=
                findOrder_eq_of_mem S3 q hq hN3
              unfold storedBatch
              rw [hfo]
              simp [hql]
          exact List.mem_map_of_mem Order.order_id hqfil
        · rw [h1] at hql
          exact absurd hql (by simp)
      have hb5 : S5.batches = S.batches := by
        rw [hS5, specWeightLoop_batches, hb3]
      have hc5 : S5.couriers = S1.couriers := by
        rw [hS5, specWeightLoop_couriers, hc3]
      have hev35 : EvictsOnly S3 S5 := by
        rw [hS5]; exact evictsOnly_specWeightLoop _ _ _ _
      have hNC5 : InvNC S5 :=
        invNC_evictsOnly S3 S5 hev35 (by rw [hb5, hb3]) (by rw [hc5, hc3]) hNC3
      have hW5 : WeightsOk S5 := by
        have h2 := hNC5; unfold InvNC at h2; exact h2.1
      have hcap5 : total_weight S5 c.courier_id ≤ c.capacity := by
        rw [hS5]
        exact specWeightLoop_cap c.capacity c.courier_id (capacity_nonneg c)
          rem S3 hcover
      have hmono5 : ∀ cid, total_weight S5 cid ≤ total_weight S cid := by
        intro cid
        exact le_trans
          (evictsOnly_total_weight_le hev35 (by rw [hb5, hb3]) hW3 cid)
          (hcmono cid)
      apply inv_of_invNC_cap (invNC_cancelIfEmpty S5 batch.id hNC5)
      by_cases hemp5 : (ordersOfBatch S5 batch.id).isEmpty = true
      · rw [cancelIfEmpty_of_empty S5 batch.id hemp5]
        intro x' hx'
        rw [mapBatch_couriers] at hx'
        rw [hc5] at hx'
        have hle := total_weight_le_mapBatch_clear S5 batch.id x'.courier_id
          (fun b => { b with current_courier := none }) (fun b => rfl)
          (fun b => rfl) hW5
        rcases hrowsC x' hx' with h1 | h1
        · calc total_weight (mapBatch S5 batch.id fun b =>
                { b with current_courier := none }) x'.courier_id
              ≤ total_weight S5 x'.courier_id := hle
            _ = total_weight S5 c.courier_id := by rw [h1]
            _ ≤ c.capacity := hcap5
            _ = x'.capacity := by rw [h1]
        · exact le_trans hle
            (le_trans (hmono5 x'.courier_id) ((Inv_cap h) x' h1))
      · rw [cancelIfEmpty_of_nonEmpty S5 batch.id hemp5]
        intro x' hx'
        rw [hc5] at hx'
        rcases hrowsC x' hx' with h1 | h1
        · calc total_weight S5 x'.courier_id
              = total_weight S5 c.courier_id := by rw [h1]
            _ ≤ c.capacity := hcap5
            _ = x'.capacity := by rw [h1]
        · exact le_trans (hmono5 x'.courier_id) ((Inv_cap h) x' h1)

theorem inv_updateOp (S : State) (cid : Nat) (nt : Option CourierType)
    (nr : Option (List Nat)) (nh : Option (List Window)) (h : Inv S) :
    Inv (updateOp S cid nt nr nh) := by
  unfold updateOp
  cases hf : findCourier S cid with
  | none => exact h
  | some c0 =>
    dsimp only
    rw [courierUpdate_eq_spec S c0 nt nr nh (Inv_unique h) (Inv_ids h).1]
    exact inv_courierUpdateSpec S c0 nt nr nh h

theorem sublist_sum_le (l1 l2 : List ℚ) (hs : List.Sublist l1 l2)
    (h0 : ∀ x ∈ l2, 0 ≤ x) : l1.sum ≤ l2.sum := by
  induction hs with
  | slnil => exact le_refl _
  | cons a hs ih =>
    rw [List.sum_cons]
    have h1 := ih fun x hx => h0 x (List.mem_cons_of_mem _ hx)
    have h2 := h0 a (List.mem_cons_self _ _)
    linarith
  | cons₂ a hs ih =>
    rw [List.sum_cons, List.sum_cons]
    have h1 := ih fun x hx => h0 x (List.mem_cons_of_mem _ hx)
    linarith

theorem claimCap_of_inv {S : State} (h : Inv S) : ClaimCapacityOk S := by
  intro c hc b hb hbc
  have hNodupB : (S.batches.map Batch.id).Nodup := (Inv_ids h).2.1
  have hfb : findBatch S b.id = some b := findBatch_eq_of_mem S b hb hNodupB
  have hsubl : List.Sublist
      ((ordersOfBatch S b.id).filter fun o => decide (o.complete_time = none))
      S.orders := by
    unfold ordersOfBatch
    exact List.Sublist.trans (List.filter_sublist _) (List.filter_sublist _)
  have hptw : ∀ o ∈ (ordersOfBatch S b.id).filter
      (fun o => decide (o.complete_time = none)),
      o.weight = contrib S c.courier_id o := by
    intro o ho
    rw [List.mem_filter] at ho
    have ho2 := ho.1
    unfold ordersOfBatch at ho2
    rw [List.mem_filter] at ho2
    simp only [decide_eq_true_eq] at ho ho2
    have hcond : o.complete_time = none ∧
        orderCourierId S o = some c.courier_id := by
      refine ⟨ho.2, ?_⟩
      rw [orderCourierId_some_iff]
      exact ⟨b.id, b, ho2.2, hfb, hbc⟩
    unfold contrib
    rw [if_pos hcond]
  unfold batchIncompleteWeight
  rw [List.map_congr_left hptw]
  have hle : (((ordersOfBatch S b.id).filter fun o =>
      decide (o.complete_time = none)).map (contrib S c.courier_id)).sum
      ≤ (S.orders.map (contrib S c.courier_id)).sum := by
    apply sublist_sum_le
    · exact List.Sublist.map _ hsubl
    · intro x hx
      simp only [List.mem_map] at hx
      obtain ⟨q, hq, rfl⟩ := hx
      exact contrib_nonneg S c.courier_id q ((Inv_weights h) q hq)
  exact le_trans hle ((Inv_cap h) c hc)

/-- C1: on any state satisfying the reachable-state invariant, after any
Assign, any UpdateCourierProfile and any CompleteOrder call every courier
with an open batch carries an incomplete-order weight within the capacity
of its current type (the endpoints preserve the full invariant, whose
capacity component bounds every open batch's incomplete weight). -/
theorem capacity_invariant (S : State) (h : Inv S) :
    (∀ cid now, ClaimCapacityOk (assignOp S cid now)) ∧
    (∀ cid nt nr nh, ClaimCapacityOk (updateOp S cid nt nr nh)) ∧
    (∀ oid claimed t, ClaimCapacityOk (completeOp S oid claimed t)) :=
  ⟨fun cid now => claimCap_of_inv (inv_assignOp S cid now h),
   fun cid nt nr nh => claimCap_of_inv (inv_updateOp S cid nt nr nh h),
   fun oid claimed t => claimCap_of_inv (inv_completeOp S oid claimed t h)⟩

theorem capacity_invariant_witness :
    Inv twoOrderBatchState ∧
      ClaimCapacityOk (assignOp twoOrderBatchState 3 5) := by
  have hInv : Inv twoOrderBatchState := by
    unfold Inv
    refine ⟨by decide, by decide, by decide, by decide, by decide, ?_,
      by decide, by decide⟩
    intro c hc
    have hc2 : c = ⟨3, .bike, [15, 16], [wAll]⟩ := by
      simpa [twoOrderBatchState] using hc
    subst hc2
    norm_num [total_weight, contrib, orderCourierId, findBatch,
      twoOrderBatchState, List.find?, Courier.capacity, COURIER_CAPACITIES]
  exact ⟨hInv, (capacity_invariant twoOrderBatchState hInv).1 3 5⟩

/-- C10: on any state satisfying the reachable-state invariant every
order still linked to a batch with `past_courier` set is complete, and
the property is preserved by the three mutating endpoints, so the rating
computation never meets a missing `complete_time` on a closed batch. -/
theorem closed_batches_complete (S : State) (h : Inv S) :
    ClosedComplete S ∧
    (∀ cid now, ClosedComplete (assignOp S cid now)) ∧
    (∀ cid nt nr nh, ClosedComplete (updateOp S cid nt nr nh)) ∧
    (∀ oid claimed t, ClosedComplete (completeOp S oid claimed t)) :=
  ⟨Inv_closed h,
   fun cid now => Inv_closed (inv_assignOp S cid now h),
   fun cid nt nr nh => Inv_closed (inv_updateOp S cid nt nr nh h),
   fun oid claimed t => Inv_closed (inv_completeOp S oid claimed t h)⟩

theorem closed_batches_complete_witness :
    Inv closedBatchState ∧
      ClosedComplete (completeOp closedBatchState 1 3 2000) := by
  have hInv : Inv closedBatchState := by
    unfold Inv
    refine ⟨by decide, by decide, by decide, by decide, by decide, ?_,
      by decide, by decide⟩
    intro c hc
    have hc2 : c = ⟨3, .bike, [15], [wAll]⟩ := by
      simpa [closedBatchState] using hc
    subst hc2
    norm_num [total_weight, contrib, orderCourierId, findBatch,
      closedBatchState, List.find?, Courier.capacity, COURIER_CAPACITIES]
    decide
  exact ⟨hInv, (closed_batches_complete closedBatchState hInv).2.2.2 1 3 2000⟩

end Slasti
